import Mathlib

/-!
Verification model of the debateai-frontend streaming pipeline.

Part 1 models `src/lib/stream.ts` (the strict NDJSON variant, the one the
specification follows): a stateful WHATWG UTF-8 decoder fed chunk by chunk
(`TextDecoder.decode(value, stream: true)`), newline splitting with a carried
partial line, per-line JSON parsing with silent drop of unparsable lines, and
the end-of-stream flush.  `JSON.parse` is a host primitive; it is modelled as
an abstract total function `parse : List Char → Option E` (`none` models a
thrown parse error).  JS strings are modelled as `List Char`.

Part 2 models `src/lib/messageOps.ts` and the turn-buffer / paced-reveal logic
of `src/hooks/useDebate.ts` (the revision with `deltaBufferRef`,
`scheduleFlush`, `firstDeltaSeenRef`, `turnStartAtRef`) as an explicit
event-loop state machine: network events, the pending animation-frame
callback, pending dwell timeouts and clock advance are the actions.  React
functional state updates (`setMessages(prev => …)`) are modelled as applied
immediately: the updaters compose in submission order, so the committed state
agrees; `sessionId`/`session` persistence, the audio cache and the abort
controllers are outside the model.
-/

/-- Unicode replacement character U+FFFD, emitted by a lenient
(`fatal: false`) `TextDecoder` on malformed input. -/
def replChar : Char := Char.ofNat 0xFFFD

/-- State of the incremental WHATWG UTF-8 decoder backing
`new TextDecoder("utf-8", { fatal: false })`: how many continuation bytes are
still needed, how many were seen, the code point accumulated so far, and the
allowed range for the next continuation byte. -/
structure Utf8Decoder where
  needed : Nat
  seen : Nat
  cp : Nat
  lower : Nat
  upper : Nat
deriving DecidableEq

/-- Fresh decoder state. -/
def utf8Init : Utf8Decoder := ⟨0, 0, 0, 0x80, 0xBF⟩

/-- Handle one byte in the "no sequence in progress" state (WHATWG utf-8
decoder, bytes-needed = 0 case). -/
def utf8Start (b : Nat) : Utf8Decoder × List Char :=
  if b ≤ 0x7F then (utf8Init, [Char.ofNat b])
  else if 0xC2 ≤ b ∧ b ≤ 0xDF then
    (⟨1, 0, b % 32, 0x80, 0xBF⟩, [])
  else if 0xE0 ≤ b ∧ b ≤ 0xEF then
    (⟨2, 0, b % 16, if b = 0xE0 then 0xA0 else 0x80, if b = 0xED then 0x9F else 0xBF⟩, [])
  else if 0xF0 ≤ b ∧ b ≤ 0xF4 then
    (⟨3, 0, b % 8, if b = 0xF0 then 0x90 else 0x80, if b = 0xF4 then 0x8F else 0xBF⟩, [])
  else (utf8Init, [replChar])

/-- Handle one byte of input (WHATWG utf-8 decoder step).  An invalid
continuation byte emits U+FFFD and is reprocessed as a start byte. -/
def utf8Step (d : Utf8Decoder) (b : Nat) : Utf8Decoder × List Char :=
  if d.needed = 0 then utf8Start b
  else if d.lower ≤ b ∧ b ≤ d.upper then
    (if d.seen + 1 = d.needed then (utf8Init, [Char.ofNat (d.cp * 64 + b % 64)])
     else (⟨d.needed, d.seen + 1, d.cp * 64 + b % 64, 0x80, 0xBF⟩, []))
  else
    ((utf8Start b).1, replChar :: (utf8Start b).2)

/-- Fold step threading the decoder state and accumulating output. -/
def decodeStep (p : Utf8Decoder × List Char) (b : Nat) : Utf8Decoder × List Char :=
  ((utf8Step p.1 b).1, p.2 ++ (utf8Step p.1 b).2)

/-- `decoder.decode(chunk, { stream: true })`: push a chunk of bytes through
the stateful decoder, returning the new state and the decoded text. -/
def decodePush (d : Utf8Decoder) (bs : List Nat) : Utf8Decoder × List Char :=
  bs.foldl decodeStep (d, [])

/-- `decoder.decode()` at end of stream: a dangling incomplete sequence
becomes one replacement character. -/
def decodeFlush (d : Utf8Decoder) : List Char :=
  if d.needed = 0 then [] else [replChar]

/-- Decode a whole byte list in one go, flush included. -/
def decodeFull (bs : List Nat) : List Char :=
  (decodePush utf8Init bs).2 ++ decodeFlush (decodePush utf8Init bs).1

/-- `data.split("\n")` on a JS string: `n` newlines give `n + 1` pieces,
empty pieces included. -/
def splitLines : List Char → List (List Char)
  | [] => [[]]
  | c :: rest =>
    if c = '\n' then [] :: splitLines rest
    else
      match splitLines rest with
      | [] => [[c]]
      | l :: ls => (c :: l) :: ls

/-- All pieces of a split but the last (the lines the loop consumes). -/
def initParts : List (List Char) → List (List Char)
  | [] => []
  | [_] => []
  | l :: m :: ls => l :: initParts (m :: ls)

/-- The last piece of a split (`lines.pop()`, the new carry). -/
def lastPart : List (List Char) → List Char
  | [] => []
  | [l] => l
  | _ :: m :: ls => lastPart (m :: ls)

/-- The per-line body of the read loop: empty lines are skipped
(`line.length === 0`), other lines are parsed, and a parse failure is
swallowed (`catch`) yielding no event. -/
def emitLine {E : Type} (parse : List Char → Option E) (l : List Char) : Option E :=
  if l = [] then none else parse l

/-- Events produced by a list of complete lines, in order. -/
def emitLines {E : Type} (parse : List Char → Option E) (ls : List (List Char)) : List E :=
  ls.filterMap (emitLine parse)

/-- Line-splitting state: the carried partial line and the events emitted so
far. -/
structure LineAcc (E : Type) where
  carry : List Char
  evs : List E
deriving DecidableEq

/-- Process one chunk of decoded text: prepend the carry, split on newlines,
keep the trailing partial piece as the new carry, emit the complete lines. -/
def lineChunk {E : Type} (parse : List Char → Option E) (st : LineAcc E) (t : List Char) :
    LineAcc E :=
  ⟨lastPart (splitLines (st.carry ++ t)),
   st.evs ++ emitLines parse (initParts (splitLines (st.carry ++ t)))⟩

/-- Whole-stream state: decoder state, carried partial line, events so far. -/
structure StreamAcc (E : Type) where
  dec : Utf8Decoder
  carry : List Char
  evs : List E
deriving DecidableEq

/-- One iteration of the `while (true)` read loop of `streamJSON` for a chunk
of bytes. -/
def chunkStep {E : Type} (parse : List Char → Option E) (st : StreamAcc E) (chunk : List Nat) :
    StreamAcc E :=
  ⟨(decodePush st.dec chunk).1,
   (lineChunk parse ⟨st.carry, st.evs⟩ (decodePush st.dec chunk).2).carry,
   (lineChunk parse ⟨st.carry, st.evs⟩ (decodePush st.dec chunk).2).evs⟩

/-- The read loop over a list of chunks. -/
def runChunks {E : Type} (parse : List Char → Option E) (st : StreamAcc E)
    (chunks : List (List Nat)) : StreamAcc E :=
  chunks.foldl (chunkStep parse) st

/-- End of stream: flush the decoder, append the flushed text to the carry,
and if the remaining carry is nonempty try to parse it as a final line
(failure ignored). -/
def finishStream {E : Type} (parse : List Char → Option E) (st : StreamAcc E) : List E :=
  st.evs ++
    (if st.carry ++ decodeFlush st.dec = [] then []
     else (parse (st.carry ++ decodeFlush st.dec)).toList)

/-- The full event sequence `streamJSON` hands to `onEvent` for a successful
response whose body arrives as the given chunks. -/
def streamEvents {E : Type} (parse : List Char → Option E) (chunks : List (List Nat)) : List E :=
  finishStream parse (runChunks parse ⟨utf8Init, [], []⟩ chunks)

/-- The parts of a `fetch` `Response` that `streamJSON` consumes: `ok`,
`status`, the diagnostic text `safeText` would produce for the body, and the
body chunks (`none` models a missing body, where `streamJSON` returns with no
events). -/
structure HttpResponse where
  ok : Bool
  status : Nat
  bodyText : List Char
  body : Option (List (List Nat))

/-- `streamJSON` itself: a non-ok response throws
`HTTP ${status}: ${await safeText(res)}` before any event is delivered
(modelled as `Except.error` with the message); otherwise the decoded events
are delivered (`Except.ok`).  Parse failures never escape. -/
def streamJSONModel {E : Type} (parse : List Char → Option E) (res : HttpResponse) :
    Except (List Char) (List E) :=
  if res.ok = false then
    Except.error (("HTTP " ++ toString res.status ++ ": ").toList ++ res.bodyText)
  else
    match res.body with
    | none => Except.ok []
    | some chunks => Except.ok (streamEvents parse chunks)

/-- Proof-only reformulation: process decoded text character by character,
the carry being the current partial line. -/
def charStep {E : Type} (parse : List Char → Option E) (st : LineAcc E) (c : Char) : LineAcc E :=
  if c = '\n' then ⟨[], st.evs ++ (emitLine parse st.carry).toList⟩
  else ⟨st.carry ++ [c], st.evs⟩

/-- Character-by-character run over a text. -/
def charRun {E : Type} (parse : List Char → Option E) (st : LineAcc E) (t : List Char) :
    LineAcc E :=
  t.foldl (charStep parse) st

/-- Proof-only reformulation: the whole pipeline driven one byte at a time. -/
def byteStep {E : Type} (parse : List Char → Option E) (st : StreamAcc E) (b : Nat) :
    StreamAcc E :=
  ⟨(utf8Step st.dec b).1,
   (charRun parse ⟨st.carry, st.evs⟩ (utf8Step st.dec b).2).carry,
   (charRun parse ⟨st.carry, st.evs⟩ (utf8Step st.dec b).2).evs⟩

/-- Byte-by-byte run over a byte list. -/
def byteRun {E : Type} (parse : List Char → Option E) (st : StreamAcc E) (bs : List Nat) :
    StreamAcc E :=
  bs.foldl (byteStep parse) st

/-- A piece of text containing no newline (a partial line). -/
def noNL (l : List Char) : Prop := '\n' ∉ l

instance decNoNL (l : List Char) : Decidable (noNL l) :=
  inferInstanceAs (Decidable ('\n' ∉ l))

/-- Role of a chat message (`Role` in `src/lib/chat.ts`). -/
inductive Role where
  | user
  | assistant
  | system
deriving DecidableEq

/-- A RAG source excerpt (`SourceItem` in `src/lib/chat.ts`). -/
structure SourceItem where
  title : String
  snippet : String
  chunk_index : Option Nat
deriving DecidableEq

/-- A chat message (`Message` in `src/lib/chat.ts`).  JS strings are modelled
as `List Char` for the streamed `text`; `turnId` is absent on user messages,
`audio` is absent until resolved, `sources` defaults to `[]`. -/
structure Msg where
  role : Role
  speaker : String
  text : List Char
  turnId : Option Nat
  audio : Option String
  sources : List SourceItem
deriving DecidableEq

/-- `appendDeltaByTurnId` from `src/lib/messageOps.ts`: find the first message
whose `turnId` matches, copy the list, and replace that one message by a copy
with `text` extended by the fragment; no match returns the list unchanged. -/
def appendDeltaByTurnId : List Msg → Nat → List Char → List Msg
  | [], _, _ => []
  | m :: rest, t, txt =>
    if m.turnId = some t then { m with text := m.text ++ txt } :: rest
    else m :: appendDeltaByTurnId rest t txt

/-- `updateAudioByTurnId` from `src/lib/messageOps.ts`. -/
def updateAudioByTurnId : List Msg → Nat → String → List Msg
  | [], _, _ => []
  | m :: rest, t, url =>
    if m.turnId = some t then { m with audio := some url } :: rest
    else m :: updateAudioByTurnId rest t url

/-- `setSourcesByTurnId` from `src/lib/messageOps.ts`. -/
def setSourcesByTurnId : List Msg → Nat → List SourceItem → List Msg
  | [], _, _ => []
  | m :: rest, t, items =>
    if m.turnId = some t then { m with sources := items } :: rest
    else m :: setSourcesByTurnId rest t items

/-- Backwards scan of `updateAudioOnLatestBySpeaker` (the loop runs from the
end of the list, so it is a forward scan of the reversed list). -/
def updateAudioFromEnd : List Msg → String → String → List Msg
  | [], _, _ => []
  | m :: rest, sp, url =>
    if m.speaker = sp ∧ m.audio = none then { m with audio := some url } :: rest
    else m :: updateAudioFromEnd rest sp url

/-- `updateAudioOnLatestBySpeaker` from `src/lib/messageOps.ts`: a falsy url
(null or empty) returns the list unchanged; otherwise the latest message of
the speaker without audio gets the url. -/
def updateAudioOnLatestBySpeaker (prev : List Msg) (rawSpeaker : String)
    (audioUrl : Option String) : List Msg :=
  match audioUrl with
  | none => prev
  | some u => if u = "" then prev else (updateAudioFromEnd prev.reverse rawSpeaker u).reverse

/-- `MIN_TYPING_DWELL_MS` in `useDebate.ts`. -/
def MIN_TYPING_DWELL_MS : Nat := 120

/-- `deltaBufferRef.current.get(k) || ""`: the pending text buffered for a
turn (a JS `Map` is an insertion-ordered association list). -/
def bufGet : List (Nat × List Char) → Nat → List Char
  | [], _ => []
  | p :: rest, k => if p.1 = k then p.2 else bufGet rest k

/-- `deltaBufferRef.current.set(k, (get(k) || "") + text)`: extend the entry
in place (a JS `Map.set` keeps the position of an existing key) or append a
new entry at the end. -/
def bufAppend : List (Nat × List Char) → Nat → List Char → List (Nat × List Char)
  | [], k, txt => [(k, txt)]
  | p :: rest, k, txt =>
    if p.1 = k then (p.1, p.2 ++ txt) :: rest else p :: bufAppend rest k txt

/-- The `paintedActive` accumulator of the flush loop: some buffer entry for
the active turn holds truthy (nonempty) text. -/
def bufHasText : List (Nat × List Char) → Nat → Bool
  | [], _ => false
  | p :: rest, a => if p.1 = a ∧ p.2 ≠ [] then true else bufHasText rest a

/-- `turnStartAtRef.current.get(k)` (a `Map` from turn id to start time). -/
def mapGetN : List (Nat × Nat) → Nat → Option Nat
  | [], _ => none
  | p :: rest, k => if p.1 = k then some p.2 else mapGetN rest k

/-- `turnStartAtRef.current.set(k, v)`. -/
def mapSetN : List (Nat × Nat) → Nat → Nat → List (Nat × Nat)
  | [], k, v => [(k, v)]
  | p :: rest, k, v => if p.1 = k then (k, v) :: rest else p :: mapSetN rest k v

/-- `turnStartAtRef.current.delete(k)`. -/
def mapEraseN : List (Nat × Nat) → Nat → List (Nat × Nat)
  | [], _ => []
  | p :: rest, k => if p.1 = k then mapEraseN rest k else p :: mapEraseN rest k

/-- `firstDeltaSeenRef.current.add(k)` (a JS `Set` of turn ids). -/
def setInsert (l : List Nat) (k : Nat) : List Nat := if k ∈ l then l else k :: l

/-- `firstDeltaSeenRef.current.delete(k)`. -/
def setErase : List Nat → Nat → List Nat
  | [], _ => []
  | a :: rest, k => if a = k then setErase rest k else a :: setErase rest k

/-- The state of the `useDebate` hook that the turn-buffer pipeline touches:
the rendered transcript (`messages` React state), the pending-delta buffer,
whether an animation-frame callback is pending (`rafRef.current != null`),
the fire times of pending `setTimeout(scheduleFlush, …)` callbacks, the
first-reveal set, the per-turn start-time map, the active streaming turn
(`streamingTurnId` state mirrored in `streamingTurnIdRef`), the typing
indicator, the loading flag, and the current time (`performance.now()`). -/
structure Sys where
  clock : Nat
  messages : List Msg
  buf : List (Nat × List Char)
  rafPending : Bool
  timeouts : List Nat
  firstSeen : List Nat
  turnStart : List (Nat × Nat)
  streaming : Option Nat
  typing : Option String
  loading : Bool
deriving DecidableEq

/-- `scheduleFlush()` up to the callback: coalescing — if an animation frame
is already scheduled, do nothing; otherwise schedule one. -/
def scheduleFlush (s : Sys) : Sys :=
  if s.rafPending then s else { s with rafPending := true }

/-- The batched flush (`setMessages` updater inside the rAF callback): apply
every buffered turn's pending text in insertion order, skipping falsy entries,
then clear the buffer; if the active turn was painted for the first time, mark
it first-seen and hide the typing indicator
(`HIDE_INDICATOR_ON_FIRST_PAINT = true`). -/
def flushMessages : List Msg → List (Nat × List Char) → List Msg
  | msgs, [] => msgs
  | msgs, (k, b) :: rest =>
    flushMessages (if b = [] then msgs else appendDeltaByTurnId msgs k b) rest

/-- The body of the flush after the dwell check has passed (or did not
apply). -/
def flushStep (s : Sys) : Sys :=
  match s.streaming with
  | some a =>
    if a ∉ s.firstSeen ∧ bufHasText s.buf a = true then
      { s with messages := flushMessages s.messages s.buf, buf := [],
               firstSeen := setInsert s.firstSeen a, typing := none }
    else { s with messages := flushMessages s.messages s.buf, buf := [] }
  | none => { s with messages := flushMessages s.messages s.buf, buf := [] }

/-- The pending animation-frame callback firing (`requestAnimationFrame`
callback in `scheduleFlush`): clear `rafRef`, then, if the active turn has not
had its first reveal and its dwell has not elapsed, reschedule via
`setTimeout(scheduleFlush, remain)` and render nothing; otherwise run the
batched flush. -/
def frameStep (s : Sys) : Sys :=
  if s.rafPending = false then s
  else
    let s1 := { s with rafPending := false }
    match s.streaming with
    | some a =>
      if a ∈ s.firstSeen then flushStep s1
      else
        if s.clock - (mapGetN s.turnStart a).getD 0 < MIN_TYPING_DWELL_MS then
          { s1 with timeouts := s1.timeouts ++
              [s.clock + (MIN_TYPING_DWELL_MS - (s.clock - (mapGetN s.turnStart a).getD 0))] }
        else flushStep s1
    | none => flushStep s1

/-- `appendDelta(turnId, raw)` after `unwrapJson` (a host `JSON.parse`
envelope unwrap) has produced the text and the optional audio filename-url,
followed by the optional inline `[AUDIO::speaker::filename::]` annotation of
the `delta` case of `onEvent` (the regex match and `resolveAudioPath` are host
operations, so the step carries their outcome): truthy text is appended to the
turn's pending buffer and a flush is scheduled; truthy audio is attached to
the turn immediately, bypassing the text buffer. -/
def deltaStep (s : Sys) (id : Nat) (text : List Char) (audio : Option String)
    (annot : Option (String × String)) : Sys :=
  let s1 := if text = [] then s else scheduleFlush { s with buf := bufAppend s.buf id text }
  let s2 := match audio with
    | some u => if u = "" then s1 else { s1 with messages := updateAudioByTurnId s1.messages id u }
    | none => s1
  match annot with
  | some pr => { s2 with messages := updateAudioOnLatestBySpeaker s2.messages pr.1 (some pr.2) }
  | none => s2

/-- The `turn` case of `onEvent`: set loading and the typing speaker
(`evt.speaker || "Assistant"`), make the turn the active streaming turn,
record its dwell start time, clear its first-reveal flag, and append an empty
assistant bubble (whose header is `evt.speaker` itself). -/
def turnStep (s : Sys) (id : Nat) (sp : String) : Sys :=
  { s with loading := true, typing := some (if sp = "" then "Assistant" else sp),
           streaming := some id,
           turnStart := mapSetN s.turnStart id s.clock,
           firstSeen := setErase s.firstSeen id,
           messages := s.messages ++ [⟨Role.assistant, sp, [], some id, none, []⟩] }

/-- The `endturn` case of `onEvent`: clear loading; if the buffer is nonempty,
flush every buffered turn unconditionally (no dwell check) and clear the
buffer; clear the typing/streaming state if this turn was the active one;
drop the turn's dwell start time. -/
def endturnStep (s : Sys) (id : Nat) : Sys :=
  let s1 := { s with loading := false }
  let s2 := if s1.buf = [] then s1
    else { s1 with messages := flushMessages s1.messages s1.buf, buf := [] }
  let s3 := if s2.streaming = some id then { s2 with typing := none, streaming := none } else s2
  { s3 with turnStart := mapEraseN s3.turnStart id }

/-- The `error` case of `onEvent`: clear loading and the typing indicator,
drop the active turn's dwell start time, clear the active streaming turn;
buffers and messages are deliberately left alone. -/
def errorStep (s : Sys) : Sys :=
  let s1 := { s with loading := false, typing := none }
  let s2 := match s1.streaming with
    | some tid => { s1 with turnStart := mapEraseN s1.turnStart tid }
    | none => s1
  { s2 with streaming := none }

/-- `reset()`: abort the stream, clear messages, loading, typing, streaming,
the delta buffer, the first-reveal set and the dwell start times.  The
pending animation frame (`rafRef`) and pending timeouts are NOT cancelled by
the source, so they survive; `sessionId`/`input`/`started`/`audioCacheRef`
are outside this model. -/
def resetStep (s : Sys) : Sys :=
  { s with messages := [], loading := false, typing := none, streaming := none,
           buf := [], firstSeen := [], turnStart := [] }

/-- A pending `setTimeout(scheduleFlush, remain)` firing: allowed once its
fire time has been reached; it just calls `scheduleFlush`. -/
def timerStep (s : Sys) (i : Nat) : Sys :=
  match s.timeouts.get? i with
  | some fire =>
    if fire ≤ s.clock then scheduleFlush { s with timeouts := s.timeouts.eraseIdx i } else s
  | none => s

/-- Wall-clock time advancing. -/
def tickStep (s : Sys) (d : Nat) : Sys := { s with clock := s.clock + d }

/-- The `sources` case of `onEvent`. -/
def sourcesStep (s : Sys) (id : Nat) (items : List SourceItem) : Sys :=
  { s with messages := setSourcesByTurnId s.messages id items }

/-- The actions of the event loop: stream events as interpreted by `onEvent`
(`session` only touches persistence and is outside the model), the pending
animation frame firing, a pending timeout firing, the clock advancing, and
`reset()`. -/
inductive Act where
  | turn (id : Nat) (speaker : String)
  | delta (id : Nat) (text : List Char) (audio : Option String) (annot : Option (String × String))
  | sources (id : Nat) (items : List SourceItem)
  | endturn (id : Nat)
  | error
  | frame
  | timer (i : Nat)
  | tick (d : Nat)
  | reset
deriving DecidableEq

/-- One event-loop step. -/
def applyAct (s : Sys) : Act → Sys
  | Act.turn id sp => turnStep s id sp
  | Act.delta id txt au an => deltaStep s id txt au an
  | Act.sources id items => sourcesStep s id items
  | Act.endturn id => endturnStep s id
  | Act.error => errorStep s
  | Act.frame => frameStep s
  | Act.timer i => timerStep s i
  | Act.tick d => tickStep s d
  | Act.reset => resetStep s

/-- Run a trace of event-loop steps. -/
def run (s : Sys) (acts : List Act) : Sys := acts.foldl applyAct s

/-- Rendered text of the turn: the `text` of the first message carrying this
`turnId` (empty if none). -/
def textOfMsgs : List Msg → Nat → List Char
  | [], _ => []
  | m :: rest, t => if m.turnId = some t then m.text else textOfMsgs rest t

/-- Rendered text of a turn in a state. -/
def textOf (s : Sys) (t : Nat) : List Char := textOfMsgs s.messages t

/-- Number of messages carrying a given `turnId`. -/
def countTurn : List Msg → Nat → Nat
  | [], _ => 0
  | m :: rest, t => (if m.turnId = some t then 1 else 0) + countTurn rest t

/-- Concatenation, in arrival order, of the delta fragments a trace delivers
for a turn. -/
def deltasFor (t : Nat) : List Act → List Char
  | [] => []
  | Act.delta id txt _ _ :: rest => (if id = t then txt else []) ++ deltasFor t rest
  | _ :: rest => deltasFor t rest

/-- The buffer holds at most one entry per turn id (true of every buffer the
code builds, since `bufAppend` extends entries in place). -/
def bufKeysNodup (l : List (Nat × List Char)) : Prop := (l.map Prod.fst).Nodup

instance decBufKeysNodup (l : List (Nat × List Char)) : Decidable (bufKeysNodup l) :=
  inferInstanceAs (Decidable ((l.map Prod.fst).Nodup))

/-- Projection of a message to the fields `textOfMsgs`/`countTurn` read. -/
def mProj (m : Msg) : Option Nat × List Char := (m.turnId, m.text)

/-- The text fragment a single action contributes to a turn's buffer. -/
def deltaTextOf (t : Nat) : Act → List Char
  | Act.delta id txt _ _ => if id = t then txt else []
  | _ => []

/-- Inductive invariant for the amended dwell property of turn `t` started at
time `st`: the turn is in the transcript once; its start time is recorded;
the clock is past the start; before the dwell expires nothing of the turn is
rendered and its first-reveal flag is clear; whatever turn is currently
streaming started no earlier than `st` (and, if already revealed, the dwell of
`t` has expired); and some turn is streaming. -/
def C3Inv (t st : Nat) (s : Sys) : Prop :=
  countTurn s.messages t = 1 ∧
  mapGetN s.turnStart t = some st ∧
  st ≤ s.clock ∧
  (s.clock < st + MIN_TYPING_DWELL_MS → textOf s t = [] ∧ t ∉ s.firstSeen) ∧
  (∀ a, s.streaming = some a →
    ∃ sa, mapGetN s.turnStart a = some sa ∧ st ≤ sa ∧ sa ≤ s.clock ∧
      (a ∈ s.firstSeen → st + MIN_TYPING_DWELL_MS ≤ s.clock)) ∧
  s.streaming ≠ none

theorem splitLines_ne_nil : ∀ t : List Char, splitLines t ≠ [] := by
  intro t
  cases t with
  | nil => simp [splitLines]
  | cons c rest =>
    simp only [splitLines]
    by_cases hc : c = '\n'
    · simp [hc]
    · simp only [hc, if_false]
      cases splitLines rest <;> simp

theorem noNL_nil : noNL [] := by simp [noNL]

theorem noNL_cons {c : Char} {l : List Char} (hc : c ≠ '\n') (hl : noNL l) :
    noNL (c :: l) := by
  simp [noNL] at hl ⊢
  exact ⟨fun h => hc h.symm, hl⟩

theorem noNL_snoc {c : Char} {l : List Char} (hl : noNL l) (hc : c ≠ '\n') :
    noNL (l ++ [c]) := by
  simp [noNL] at hl ⊢
  exact ⟨hl, fun h => hc h.symm⟩

theorem splitLines_noNL {x : List Char} (hx : noNL x) : splitLines x = [x] := by
  induction x with
  | nil => simp [splitLines]
  | cons c rest ih =>
    have hc : c ≠ '\n' := by
      intro h; exact hx (h ▸ List.mem_cons_self c rest)
    have hrest : noNL rest := fun h => hx (List.mem_cons_of_mem c h)
    simp [splitLines, hc, ih hrest]

theorem splitLines_nl {x : List Char} (t : List Char) (hx : noNL x) :
    splitLines (x ++ '\n' :: t) = x :: splitLines t := by
  induction x with
  | nil => simp [splitLines]
  | cons c rest ih =>
    have hc : c ≠ '\n' := by
      intro h; exact hx (h ▸ List.mem_cons_self c rest)
    have hrest : noNL rest := fun h => hx (List.mem_cons_of_mem c h)
    rw [List.cons_append]
    show splitLines (c :: (rest ++ '\n' :: t)) = (c :: rest) :: splitLines t
    simp only [splitLines, hc, if_false]
    rw [ih hrest]

theorem emitLines_cons {E : Type} (parse : List Char → Option E) (l : List Char)
    (ls : List (List Char)) :
    emitLines parse (l :: ls) = (emitLine parse l).toList ++ emitLines parse ls := by
  cases h : emitLine parse l <;> simp [emitLines, List.filterMap_cons, h]

theorem initParts_cons {l : List Char} {P : List (List Char)} (hP : P ≠ []) :
    initParts (l :: P) = l :: initParts P := by
  cases P with
  | nil => exact absurd rfl hP
  | cons p ps => rfl

theorem lastPart_cons {l : List Char} {P : List (List Char)} (hP : P ≠ []) :
    lastPart (l :: P) = lastPart P := by
  cases P with
  | nil => exact absurd rfl hP
  | cons p ps => rfl

theorem lineChunk_eq_charRun {E : Type} (parse : List Char → Option E) :
    ∀ (t carry : List Char) (evs : List E), noNL carry →
      lineChunk parse ⟨carry, evs⟩ t = charRun parse ⟨carry, evs⟩ t := by
  intro t
  induction t with
  | nil =>
    intro carry evs hc
    simp [lineChunk, charRun, splitLines_noNL hc, lastPart, initParts, emitLines]
  | cons c rest ih =>
    intro carry evs hc
    by_cases hcn : c = '\n'
    · subst hcn
      have hP : splitLines rest ≠ [] := splitLines_ne_nil rest
      have lhs : lineChunk parse ⟨carry, evs⟩ ('\n' :: rest) =
          ⟨lastPart (splitLines rest),
           (evs ++ (emitLine parse carry).toList) ++ emitLines parse (initParts (splitLines rest))⟩ := by
        simp [lineChunk, splitLines_nl rest hc, initParts_cons hP, lastPart_cons hP,
          emitLines_cons, List.append_assoc]
      have rhs : charRun parse ⟨carry, evs⟩ ('\n' :: rest) =
          charRun parse ⟨[], evs ++ (emitLine parse carry).toList⟩ rest := by
        simp [charRun, charStep]
      rw [lhs, rhs, ← ih [] (evs ++ (emitLine parse carry).toList) noNL_nil]
      simp [lineChunk]
    · have hstep : charRun parse ⟨carry, evs⟩ (c :: rest) =
          charRun parse ⟨carry ++ [c], evs⟩ rest := by
        simp [charRun, charStep, hcn]
      have lhs : lineChunk parse ⟨carry ++ [c], evs⟩ rest =
          lineChunk parse ⟨carry, evs⟩ (c :: rest) := by
        simp only [lineChunk, List.append_assoc, List.singleton_append]
      rw [← lhs, hstep, ih (carry ++ [c]) evs (noNL_snoc hc hcn)]

theorem charRun_append {E : Type} (parse : List Char → Option E) (st : LineAcc E)
    (t1 t2 : List Char) :
    charRun parse st (t1 ++ t2) = charRun parse (charRun parse st t1) t2 :=
  List.foldl_append _ _ _ _

theorem charRun_carry_noNL {E : Type} (parse : List Char → Option E) :
    ∀ (t : List Char) (st : LineAcc E), noNL st.carry → noNL (charRun parse st t).carry := by
  intro t
  induction t with
  | nil => intro st h; exact h
  | cons c rest ih =>
    intro st h
    by_cases hcn : c = '\n'
    · have : charRun parse st (c :: rest) =
          charRun parse ⟨[], st.evs ++ (emitLine parse st.carry).toList⟩ rest := by
        simp [charRun, charStep, hcn]
      rw [this]; exact ih _ noNL_nil
    · have : charRun parse st (c :: rest) =
          charRun parse ⟨st.carry ++ [c], st.evs⟩ rest := by
        simp [charRun, charStep, hcn]
      rw [this]; exact ih _ (noNL_snoc h hcn)

theorem decodePush_acc : ∀ (bs : List Nat) (d : Utf8Decoder) (acc : List Char),
    bs.foldl decodeStep (d, acc) = ((decodePush d bs).1, acc ++ (decodePush d bs).2) := by
  intro bs
  induction bs with
  | nil => intro d acc; simp [decodePush]
  | cons b bs ih =>
    intro d acc
    have h1 : List.foldl decodeStep (d, acc) (b :: bs) =
        List.foldl decodeStep ((utf8Step d b).1, acc ++ (utf8Step d b).2) bs := by
      simp [List.foldl_cons, decodeStep]
    have h2 : decodePush d (b :: bs) =
        ((decodePush (utf8Step d b).1 bs).1,
         (utf8Step d b).2 ++ (decodePush (utf8Step d b).1 bs).2) := by
      show List.foldl decodeStep (decodeStep (d, []) b) bs = _
      have : decodeStep (d, []) b = ((utf8Step d b).1, (utf8Step d b).2) := by
        simp [decodeStep]
      rw [this]
      exact ih (utf8Step d b).1 (utf8Step d b).2
    rw [h1, ih (utf8Step d b).1 (acc ++ (utf8Step d b).2), h2]
    simp

theorem decodePush_cons (d : Utf8Decoder) (b : Nat) (bs : List Nat) :
    decodePush d (b :: bs) =
      ((decodePush (utf8Step d b).1 bs).1,
       (utf8Step d b).2 ++ (decodePush (utf8Step d b).1 bs).2) := by
  show List.foldl decodeStep (decodeStep (d, []) b) bs = _
  have : decodeStep (d, []) b = ((utf8Step d b).1, (utf8Step d b).2) := by
    simp [decodeStep]
  rw [this]
  exact decodePush_acc bs (utf8Step d b).1 (utf8Step d b).2

theorem decodePush_nil (d : Utf8Decoder) : decodePush d [] = (d, []) := rfl

theorem chunkStep_eq_byteRun {E : Type} (parse : List Char → Option E) :
    ∀ (bs : List Nat) (st : StreamAcc E), noNL st.carry →
      chunkStep parse st bs = byteRun parse st bs := by
  intro bs
  induction bs with
  | nil =>
    intro st h
    have : lineChunk parse ⟨st.carry, st.evs⟩ [] = ⟨st.carry, st.evs⟩ := by
      rw [lineChunk_eq_charRun parse [] st.carry st.evs h]; rfl
    simp [chunkStep, byteRun, decodePush_nil, this]
  | cons b bs ih =>
    intro st h
    have hb : chunkStep parse st (b :: bs) =
        chunkStep parse (byteStep parse st b) bs := by
      have hdec := decodePush_cons st.dec b bs
      have hchars : lineChunk parse ⟨st.carry, st.evs⟩
            ((utf8Step st.dec b).2 ++ (decodePush (utf8Step st.dec b).1 bs).2) =
          lineChunk parse (charRun parse ⟨st.carry, st.evs⟩ (utf8Step st.dec b).2)
            (decodePush (utf8Step st.dec b).1 bs).2 := by
        rw [lineChunk_eq_charRun parse _ st.carry st.evs h, charRun_append]
        have hcar : noNL (charRun parse ⟨st.carry, st.evs⟩ (utf8Step st.dec b).2).carry :=
          charRun_carry_noNL parse _ _ h
        rw [lineChunk_eq_charRun parse _ _ _ hcar]
      simp only [chunkStep, byteStep, hdec]
      rw [hchars]
    rw [hb, ih (byteStep parse st b) (charRun_carry_noNL parse _ _ h)]
    rfl

theorem byteRun_append {E : Type} (parse : List Char → Option E) (st : StreamAcc E)
    (b1 b2 : List Nat) :
    byteRun parse st (b1 ++ b2) = byteRun parse (byteRun parse st b1) b2 :=
  List.foldl_append _ _ _ _

theorem chunkStep_carry_noNL {E : Type} (parse : List Char → Option E) (st : StreamAcc E)
    (bs : List Nat) (h : noNL st.carry) : noNL (chunkStep parse st bs).carry := by
  rw [chunkStep_eq_byteRun parse bs st h]
  induction bs generalizing st with
  | nil => exact h
  | cons b bs ih =>
    show noNL (byteRun parse (byteStep parse st b) bs).carry
    exact ih _ (charRun_carry_noNL parse _ _ h)

theorem runChunks_eq_byteRun {E : Type} (parse : List Char → Option E) :
    ∀ (cs : List (List Nat)) (st : StreamAcc E), noNL st.carry →
      runChunks parse st cs = byteRun parse st cs.flatten := by
  intro cs
  induction cs with
  | nil => intro st h; rfl
  | cons c cs ih =>
    intro st h
    have h1 : runChunks parse st (c :: cs) = runChunks parse (chunkStep parse st c) cs := rfl
    rw [h1, ih (chunkStep parse st c) (chunkStep_carry_noNL parse st c h),
      chunkStep_eq_byteRun parse c st h, ← byteRun_append]
    simp

/-- C4: delivering a valid NDJSON byte sequence in any number of chunks cut at
arbitrary byte offsets (mid-codepoint and mid-line included) makes `streamJSON`
deliver to `onEvent` exactly the event sequence it would deliver for the same
bytes as one single chunk: the stateful `TextDecoder` carries split codepoints,
the partial trailing line is carried onto the next chunk, and at end of stream
the decoder is flushed and the remaining carried text is parsed as a final
line.  The equality is unconditional: it holds for every chunking of every
byte sequence and every parse function. -/
theorem C4_chunking_invariance {E : Type} (parse : List Char → Option E)
    (chunks : List (List Nat)) :
    streamEvents parse chunks = streamEvents parse [chunks.flatten] := by
  have h0 : noNL ([] : List Char) := noNL_nil
  show finishStream parse (runChunks parse ⟨utf8Init, [], []⟩ chunks) =
    finishStream parse (runChunks parse ⟨utf8Init, [], []⟩ [chunks.flatten])
  rw [runChunks_eq_byteRun parse chunks ⟨utf8Init, [], []⟩ h0]
  have h1 : runChunks parse ⟨utf8Init, [], []⟩ [chunks.flatten] =
      chunkStep parse ⟨utf8Init, [], []⟩ chunks.flatten := rfl
  rw [h1, chunkStep_eq_byteRun parse chunks.flatten ⟨utf8Init, [], []⟩ h0]

theorem decodeFlush_cases (d : Utf8Decoder) :
    decodeFlush d = [] ∨ decodeFlush d = [replChar] := by
  by_cases h : d.needed = 0 <;> simp [decodeFlush, h]

theorem replChar_ne_nl : replChar ≠ '\n' := by decide

theorem emitLine_failed {E : Type} (parse : List Char → Option E) (l : List Char)
    (h : parse l = none) : emitLine parse l = none := by
  by_cases he : l = [] <;> simp [emitLine, he, h]

theorem emitLine_ok {E : Type} (parse : List Char → Option E) (l : List Char) (e : E)
    (hne : l ≠ []) (h : parse l = some e) : emitLine parse l = some e := by
  simp [emitLine, hne, h]

/-- C5: a byte stream decoding to a valid line, then a line that fails JSON
parsing, then another valid line (each newline-terminated) makes `streamJSON`
invoke `onEvent` exactly twice, with the two valid events in order; the
malformed middle line is silently dropped (its parse failure is caught and
ignored), empty lines would be skipped, and the model is a total function, so
no parse failure escapes `streamJSON`. -/
theorem C5_malformed_line_tolerance {E : Type} (parse : List Char → Option E)
    (B : List Nat) (l1 l2 l3 : List Char) (e1 e3 : E)
    (hdec : decodeFull B = l1 ++ '\n' :: (l2 ++ '\n' :: (l3 ++ ['\n'])))
    (h1 : noNL l1) (h2 : noNL l2) (h3 : noNL l3)
    (hne1 : l1 ≠ []) (hne3 : l3 ≠ [])
    (hp1 : parse l1 = some e1) (hp2 : parse l2 = none) (hp3 : parse l3 = some e3) :
    streamEvents parse [B] = [e1, e3] := by
  have hflush : decodeFlush (decodePush utf8Init B).1 = [] := by
    rcases decodeFlush_cases (decodePush utf8Init B).1 with hf | hf
    · exact hf
    · exfalso
      have hdec2 : (decodePush utf8Init B).2 ++ [replChar] =
          l1 ++ '\n' :: (l2 ++ '\n' :: (l3 ++ ['\n'])) := by
        rw [← hf]; exact hdec
      have hre : l1 ++ '\n' :: (l2 ++ '\n' :: (l3 ++ ['\n'])) =
          (l1 ++ '\n' :: (l2 ++ '\n' :: l3)) ++ ['\n'] := by simp
      rw [hre] at hdec2
      have hlast := congrArg List.getLast? hdec2
      rw [List.getLast?_concat, List.getLast?_concat] at hlast
      exact replChar_ne_nl (Option.some_injective _ hlast)
  have htext : (decodePush utf8Init B).2 = l1 ++ '\n' :: (l2 ++ '\n' :: (l3 ++ ['\n'])) := by
    have := hdec
    rw [decodeFull, hflush, List.append_nil] at this
    exact this
  have hsplit : splitLines (l1 ++ '\n' :: (l2 ++ '\n' :: (l3 ++ ['\n']))) =
      [l1, l2, l3, []] := by
    rw [splitLines_nl _ h1, splitLines_nl _ h2]
    have : l3 ++ ['\n'] = l3 ++ '\n' :: [] := rfl
    rw [this, splitLines_nl _ h3]
    rfl
  have hl2 : emitLine parse l2 = none := emitLine_failed parse l2 hp2
  have hchunk : runChunks parse ⟨utf8Init, [], []⟩ [B] = chunkStep parse ⟨utf8Init, [], []⟩ B :=
    rfl
  show finishStream parse (runChunks parse ⟨utf8Init, [], []⟩ [B]) = [e1, e3]
  rw [hchunk]
  show finishStream parse
      ⟨(decodePush utf8Init B).1,
       (lineChunk parse ⟨[], []⟩ (decodePush utf8Init B).2).carry,
       (lineChunk parse ⟨[], []⟩ (decodePush utf8Init B).2).evs⟩ = [e1, e3]
  rw [htext]
  have hcarry : (lineChunk parse ⟨([] : List Char), ([] : List E)⟩
      (l1 ++ '\n' :: (l2 ++ '\n' :: (l3 ++ ['\n'])))).carry = [] := by
    simp only [lineChunk, List.nil_append, hsplit]
    rfl
  have hevs : (lineChunk parse ⟨([] : List Char), ([] : List E)⟩
      (l1 ++ '\n' :: (l2 ++ '\n' :: (l3 ++ ['\n'])))).evs = [e1, e3] := by
    simp only [lineChunk, List.nil_append, hsplit]
    have hip : initParts [l1, l2, l3, []] = [l1, l2, l3] := rfl
    rw [hip]
    rw [emitLines_cons, emitLines_cons, emitLines_cons]
    rw [emitLine_ok parse l1 e1 hne1 hp1, hl2, emitLine_ok parse l3 e3 hne3 hp3]
    rfl
  rw [finishStream, hcarry, hevs, hflush]
  rfl

/-- C6: on a non-success HTTP status `streamJSON` fails immediately — the
result is an error carrying the message `HTTP ${status}: ${body}` (the
response body as diagnostic text), and no event list is produced, so no
`onEvent` call happens; on a successful response the result is always an
event list — malformed stream content never turns into a rejection. -/
theorem C6_transport_failure {E : Type} (parse : List Char → Option E) (res : HttpResponse) :
    (res.ok = false →
      streamJSONModel parse res =
        Except.error (("HTTP " ++ toString res.status ++ ": ").toList ++ res.bodyText))
    ∧ (res.ok = true → ∃ evs : List E, streamJSONModel parse res = Except.ok evs) := by
  constructor
  · intro h
    simp [streamJSONModel, h]
  · intro h
    cases hb : res.body with
    | none => exact ⟨[], by simp [streamJSONModel, h, hb]⟩
    | some chunks => exact ⟨streamEvents parse chunks, by simp [streamJSONModel, h, hb]⟩

theorem C6_transport_failure_witness :
    (streamJSONModel (fun _ => (none : Option Nat)) ⟨false, 500, "oops".toList, none⟩ =
      Except.error (("HTTP " ++ toString 500 ++ ": ").toList ++ "oops".toList))
    ∧ (∃ evs : List Nat,
        streamJSONModel (fun _ => (none : Option Nat)) ⟨true, 200, [], some []⟩ =
          Except.ok evs) :=
  ⟨(C6_transport_failure (fun _ => (none : Option Nat)) ⟨false, 500, "oops".toList, none⟩).1 rfl,
   (C6_transport_failure (fun _ => (none : Option Nat)) ⟨true, 200, [], some []⟩).2 rfl⟩

theorem C5_malformed_line_tolerance_witness :
    decodeFull [97, 108, 112, 104, 97, 10, 98, 101, 116, 97, 33, 10, 103, 97, 109, 109, 97, 10] =
      "alpha".toList ++ '\n' :: ("beta!".toList ++ '\n' :: ("gamma".toList ++ ['\n']))
    ∧ streamEvents
        (fun l => if l = "alpha".toList then some 1 else if l = "gamma".toList then some 3 else none)
        [[97, 108, 112, 104, 97, 10, 98, 101, 116, 97, 33, 10, 103, 97, 109, 109, 97, 10]] =
      [1, 3] :=
  ⟨by decide,
   C5_malformed_line_tolerance
     (fun l => if l = "alpha".toList then some 1 else if l = "gamma".toList then some 3 else none)
     [97, 108, 112, 104, 97, 10, 98, 101, 116, 97, 33, 10, 103, 97, 109, 109, 97, 10]
     "alpha".toList "beta!".toList "gamma".toList 1 3
     (by decide) (by decide) (by decide) (by decide) (by decide) (by decide)
     (by decide) (by decide) (by decide)⟩

theorem textOfMsgs_eq_of_mProj : ∀ l1 l2 : List Msg, l1.map mProj = l2.map mProj →
    ∀ t, textOfMsgs l1 t = textOfMsgs l2 t := by
  intro l1
  induction l1 with
  | nil =>
    intro l2 h t
    cases l2 with
    | nil => rfl
    | cons m2 rest2 => simp at h
  | cons m rest ih =>
    intro l2 h t
    cases l2 with
    | nil => simp at h
    | cons m2 rest2 =>
      simp only [List.map_cons, List.cons.injEq] at h
      have hid : m.turnId = m2.turnId := congrArg Prod.fst h.1
      have htx : m.text = m2.text := congrArg Prod.snd h.1
      simp only [textOfMsgs, hid, htx]
      by_cases hT : m2.turnId = some t
      · simp [hT]
      · simp [hT, ih rest2 h.2 t]

theorem countTurn_eq_of_mProj : ∀ l1 l2 : List Msg, l1.map mProj = l2.map mProj →
    ∀ t, countTurn l1 t = countTurn l2 t := by
  intro l1
  induction l1 with
  | nil =>
    intro l2 h t
    cases l2 with
    | nil => rfl
    | cons m2 rest2 => simp at h
  | cons m rest ih =>
    intro l2 h t
    cases l2 with
    | nil => simp at h
    | cons m2 rest2 =>
      simp only [List.map_cons, List.cons.injEq] at h
      have hid : m.turnId = m2.turnId := congrArg Prod.fst h.1
      simp only [countTurn, hid, ih rest2 h.2 t]

theorem mProj_updateAudioByTurnId : ∀ (l : List Msg) (k : Nat) (u : String),
    (updateAudioByTurnId l k u).map mProj = l.map mProj := by
  intro l k u
  induction l with
  | nil => rfl
  | cons m rest ih =>
    by_cases h : m.turnId = some k <;> simp [updateAudioByTurnId, h, mProj, ih]

theorem mProj_setSourcesByTurnId : ∀ (l : List Msg) (k : Nat) (items : List SourceItem),
    (setSourcesByTurnId l k items).map mProj = l.map mProj := by
  intro l k items
  induction l with
  | nil => rfl
  | cons m rest ih =>
    by_cases h : m.turnId = some k <;> simp [setSourcesByTurnId, h, mProj, ih]

theorem mProj_updateAudioFromEnd : ∀ (l : List Msg) (sp : String) (u : String),
    (updateAudioFromEnd l sp u).map mProj = l.map mProj := by
  intro l sp u
  induction l with
  | nil => rfl
  | cons m rest ih =>
    by_cases h : m.speaker = sp ∧ m.audio = none <;> simp [updateAudioFromEnd, h, mProj, ih]

theorem mProj_updateAudioOnLatestBySpeaker : ∀ (l : List Msg) (sp : String) (u : Option String),
    (updateAudioOnLatestBySpeaker l sp u).map mProj = l.map mProj := by
  intro l sp u
  cases u with
  | none => rfl
  | some v =>
    by_cases hv : v = ""
    · simp [updateAudioOnLatestBySpeaker, hv]
    · simp [updateAudioOnLatestBySpeaker, hv, List.map_reverse, mProj_updateAudioFromEnd]

theorem textOfMsgs_appendDelta_self : ∀ (l : List Msg) (t : Nat) (txt : List Char),
    countTurn l t ≠ 0 → textOfMsgs (appendDeltaByTurnId l t txt) t = textOfMsgs l t ++ txt := by
  intro l t txt
  induction l with
  | nil => intro h; simp [countTurn] at h
  | cons m rest ih =>
    intro h
    by_cases hm : m.turnId = some t
    · simp [appendDeltaByTurnId, hm, textOfMsgs]
    · have hrest : countTurn rest t ≠ 0 := by
        simp [countTurn, hm] at h
        exact h
      simp [appendDeltaByTurnId, hm, textOfMsgs, ih hrest]

theorem textOfMsgs_appendDelta_ne : ∀ (l : List Msg) (k t : Nat) (txt : List Char), k ≠ t →
    textOfMsgs (appendDeltaByTurnId l k txt) t = textOfMsgs l t := by
  intro l k t txt hk
  have hk2 : t ≠ k := Ne.symm hk
  induction l with
  | nil => rfl
  | cons m rest ih =>
    by_cases hm : m.turnId = some k
    · have hmt : m.turnId ≠ some t := by
        rw [hm]; intro h; exact hk (Option.some_injective _ h)
      simp [appendDeltaByTurnId, hm, textOfMsgs, hmt, hk, hk2]
    · by_cases hmt : m.turnId = some t
      · simp [appendDeltaByTurnId, hm, textOfMsgs, hmt, hk, hk2]
      · simp [appendDeltaByTurnId, hm, textOfMsgs, hmt, ih]

theorem countTurn_appendDelta : ∀ (l : List Msg) (k t : Nat) (txt : List Char),
    countTurn (appendDeltaByTurnId l k txt) t = countTurn l t := by
  intro l k t txt
  induction l with
  | nil => rfl
  | cons m rest ih =>
    by_cases hm : m.turnId = some k <;> simp [appendDeltaByTurnId, hm, countTurn, ih]

theorem countTurn_append : ∀ (l1 l2 : List Msg) (t : Nat),
    countTurn (l1 ++ l2) t = countTurn l1 t + countTurn l2 t := by
  intro l1 l2 t
  induction l1 with
  | nil => simp [countTurn]
  | cons m rest ih => simp [countTurn, ih]; omega

theorem textOfMsgs_append_left : ∀ (l1 l2 : List Msg) (t : Nat), countTurn l1 t ≠ 0 →
    textOfMsgs (l1 ++ l2) t = textOfMsgs l1 t := by
  intro l1 l2 t
  induction l1 with
  | nil => intro h; simp [countTurn] at h
  | cons m rest ih =>
    intro h
    by_cases hm : m.turnId = some t
    · simp [textOfMsgs, hm]
    · have hrest : countTurn rest t ≠ 0 := by
        simp [countTurn, hm] at h
        exact h
      simp [textOfMsgs, hm, ih hrest]

theorem textOfMsgs_append_right : ∀ (l1 l2 : List Msg) (t : Nat), countTurn l1 t = 0 →
    textOfMsgs (l1 ++ l2) t = textOfMsgs l2 t := by
  intro l1 l2 t
  induction l1 with
  | nil => intro h; rfl
  | cons m rest ih =>
    intro h
    by_cases hm : m.turnId = some t
    · simp [countTurn, hm] at h
    · have hrest : countTurn rest t = 0 := by
        simp [countTurn, hm] at h
        exact h
      simp [textOfMsgs, hm, ih hrest]

theorem bufGet_bufAppend_self : ∀ (l : List (Nat × List Char)) (k : Nat) (txt : List Char),
    bufGet (bufAppend l k txt) k = bufGet l k ++ txt := by
  intro l k txt
  induction l with
  | nil => simp [bufAppend, bufGet]
  | cons p rest ih =>
    by_cases h : p.1 = k <;> simp [bufAppend, bufGet, h, ih]

theorem bufGet_bufAppend_ne : ∀ (l : List (Nat × List Char)) (k u : Nat) (txt : List Char),
    k ≠ u → bufGet (bufAppend l k txt) u = bufGet l u := by
  intro l k u txt hk
  induction l with
  | nil => simp [bufAppend, bufGet, hk]
  | cons p rest ih =>
    have hk2 : u ≠ k := Ne.symm hk
    by_cases h : p.1 = k
    · have h2 : p.1 ≠ u := by rw [h]; exact hk
      simp [bufAppend, bufGet, h, h2, hk, hk2]
    · by_cases h2 : p.1 = u <;> simp [bufAppend, bufGet, h, h2, ih, hk2]

theorem bufAppend_keys : ∀ (l : List (Nat × List Char)) (k : Nat) (txt : List Char),
    (bufAppend l k txt).map Prod.fst =
      if k ∈ l.map Prod.fst then l.map Prod.fst else l.map Prod.fst ++ [k] := by
  intro l k txt
  induction l with
  | nil => simp [bufAppend]
  | cons p rest ih =>
    by_cases h : p.1 = k
    · simp [bufAppend, h]
    · have h2 : k ≠ p.1 := fun he => h he.symm
      by_cases hm : k ∈ rest.map Prod.fst <;> simp [bufAppend, h, h2, hm, ih]

theorem bufKeysNodup_bufAppend {l : List (Nat × List Char)} (k : Nat) (txt : List Char)
    (h : bufKeysNodup l) : bufKeysNodup (bufAppend l k txt) := by
  unfold bufKeysNodup at h ⊢
  rw [bufAppend_keys]
  by_cases hm : k ∈ l.map Prod.fst
  · simp [hm, h]
  · simp [hm, List.nodup_append, h]

theorem bufHasText_false_of_not_mem : ∀ (l : List (Nat × List Char)) (a : Nat),
    a ∉ l.map Prod.fst → bufHasText l a = false := by
  intro l a
  induction l with
  | nil => intro h; rfl
  | cons p rest ih =>
    intro h
    simp only [List.map_cons, List.mem_cons] at h
    push_neg at h
    have h1 : p.1 ≠ a := fun he => h.1 he.symm
    have : ¬(p.1 = a ∧ p.2 ≠ []) := fun hc => h1 hc.1
    simp [bufHasText, this, ih h.2]

theorem bufHasText_iff {l : List (Nat × List Char)} (a : Nat) (h : bufKeysNodup l) :
    bufHasText l a = true ↔ bufGet l a ≠ [] := by
  induction l with
  | nil => simp [bufHasText, bufGet]
  | cons p rest ih =>
    unfold bufKeysNodup at h
    simp only [List.map_cons, List.nodup_cons] at h
    by_cases hp : p.1 = a
    · by_cases hb : p.2 = []
      · have hc : ¬(p.1 = a ∧ p.2 ≠ []) := fun hc => hc.2 hb
        have hnm : a ∉ rest.map Prod.fst := hp ▸ h.1
        simp [bufHasText, bufGet, hp, hb, hc, bufHasText_false_of_not_mem rest a hnm]
      · simp [bufHasText, bufGet, hp, hb]
    · have hc : ¬(p.1 = a ∧ p.2 ≠ []) := fun hc => hp hc.1
      simp [bufHasText, bufGet, hp, hc, ih h.2]

theorem flushMessages_countTurn : ∀ (buf : List (Nat × List Char)) (msgs : List Msg) (t : Nat),
    countTurn (flushMessages msgs buf) t = countTurn msgs t := by
  intro buf
  induction buf with
  | nil => intro msgs t; rfl
  | cons p rest ih =>
    intro msgs t
    obtain ⟨k, b⟩ := p
    show countTurn (flushMessages (if b = [] then msgs else appendDeltaByTurnId msgs k b) rest) t
      = countTurn msgs t
    rw [ih]
    by_cases hb : b = [] <;> simp [hb, countTurn_appendDelta]

theorem flushMessages_textOf_notmem :
    ∀ (buf : List (Nat × List Char)) (msgs : List Msg) (t : Nat),
    (∀ p ∈ buf, p.1 ≠ t) →
    textOfMsgs (flushMessages msgs buf) t = textOfMsgs msgs t := by
  intro buf
  induction buf with
  | nil => intro msgs t h; rfl
  | cons p rest ih =>
    intro msgs t h
    obtain ⟨k, b⟩ := p
    have hk : k ≠ t := h (k, b) (List.mem_cons_self _ _)
    have hrest : ∀ p ∈ rest, p.1 ≠ t := fun p hp => h p (List.mem_cons_of_mem _ hp)
    show textOfMsgs (flushMessages (if b = [] then msgs else appendDeltaByTurnId msgs k b) rest) t
      = textOfMsgs msgs t
    rw [ih _ t hrest]
    by_cases hb : b = [] <;> simp [hb, textOfMsgs_appendDelta_ne _ _ _ _ hk]

theorem flushMessages_textOf :
    ∀ (buf : List (Nat × List Char)) (msgs : List Msg) (t : Nat),
    bufKeysNodup buf → countTurn msgs t ≠ 0 →
    textOfMsgs (flushMessages msgs buf) t = textOfMsgs msgs t ++ bufGet buf t := by
  intro buf
  induction buf with
  | nil => intro msgs t hnd hc; simp [flushMessages, bufGet]
  | cons p rest ih =>
    intro msgs t hnd hc
    obtain ⟨k, b⟩ := p
    unfold bufKeysNodup at hnd
    simp only [List.map_cons, List.nodup_cons] at hnd
    show textOfMsgs (flushMessages (if b = [] then msgs else appendDeltaByTurnId msgs k b) rest) t
      = textOfMsgs msgs t ++ bufGet ((k, b) :: rest) t
    by_cases hk : k = t
    · subst hk
      have hrest : ∀ p ∈ rest, p.1 ≠ k := by
        intro p hp he
        exact hnd.1 (he ▸ List.mem_map_of_mem Prod.fst hp)
      rw [flushMessages_textOf_notmem rest _ k hrest]
      by_cases hb : b = []
      · simp [hb, bufGet]
      · simp [hb, bufGet, textOfMsgs_appendDelta_self msgs k b hc]
    · have hstep : countTurn (if b = [] then msgs else appendDeltaByTurnId msgs k b) t ≠ 0 := by
        by_cases hb : b = [] <;> simp [hb, countTurn_appendDelta, hc]
      rw [ih _ t hnd.2 hstep]
      have : textOfMsgs (if b = [] then msgs else appendDeltaByTurnId msgs k b) t
          = textOfMsgs msgs t := by
        by_cases hb : b = [] <;> simp [hb, textOfMsgs_appendDelta_ne _ _ _ _ hk]
      rw [this]
      simp [bufGet, hk]

theorem mem_setErase : ∀ (l : List Nat) (a k : Nat), a ∈ setErase l k ↔ a ∈ l ∧ a ≠ k := by
  intro l a k
  induction l with
  | nil => simp [setErase]
  | cons x rest ih =>
    by_cases hx : x = k
    · subst hx
      rw [setErase, if_pos rfl, ih]
      constructor
      · rintro ⟨h1, h2⟩; exact ⟨List.mem_cons_of_mem _ h1, h2⟩
      · rintro ⟨h1, h2⟩
        rcases List.mem_cons.mp h1 with h1 | h1
        · exact absurd h1 h2
        · exact ⟨h1, h2⟩
    · rw [setErase, if_neg hx]
      constructor
      · intro h
        rcases List.mem_cons.mp h with h | h
        · exact ⟨h ▸ List.mem_cons_self _ _, h ▸ hx⟩
        · obtain ⟨h1, h2⟩ := ih.mp h
          exact ⟨List.mem_cons_of_mem _ h1, h2⟩
      · rintro ⟨h1, h2⟩
        rcases List.mem_cons.mp h1 with h1 | h1
        · exact h1 ▸ List.mem_cons_self _ _
        · exact List.mem_cons_of_mem _ (ih.mpr ⟨h1, h2⟩)

theorem mem_setInsert : ∀ (l : List Nat) (a k : Nat), a ∈ setInsert l k ↔ a ∈ l ∨ a = k := by
  intro l a k
  by_cases h : k ∈ l
  · simp [setInsert, h]
    intro ha
    exact ha ▸ h
  · simp [setInsert, h, or_comm]

theorem mapGetN_mapSetN_self : ∀ (l : List (Nat × Nat)) (k v : Nat),
    mapGetN (mapSetN l k v) k = some v := by
  intro l k v
  induction l with
  | nil => simp [mapSetN, mapGetN]
  | cons p rest ih =>
    by_cases h : p.1 = k <;> simp [mapSetN, mapGetN, h, ih]

theorem mapGetN_mapSetN_ne : ∀ (l : List (Nat × Nat)) (k v u : Nat), k ≠ u →
    mapGetN (mapSetN l k v) u = mapGetN l u := by
  intro l k v u hk
  have hk2 : u ≠ k := Ne.symm hk
  induction l with
  | nil => simp [mapSetN, mapGetN, hk]
  | cons p rest ih =>
    by_cases h : p.1 = k
    · have h2 : p.1 ≠ u := by rw [h]; exact hk
      simp [mapSetN, mapGetN, h, h2, hk, hk2]
    · by_cases h2 : p.1 = u <;> simp [mapSetN, mapGetN, h, h2, ih, hk2]

/-- C10: when no message carries the turn id, `appendDeltaByTurnId`,
`updateAudioByTurnId` and `setSourcesByTurnId` all return the input list
unchanged (delta text, audio and sources addressed to an unknown turn are
silently discarded).  When a match exists (first matching message `m`, after
a non-matching prefix `pre`), each returns the same-length list in which only
that message is replaced, and the replacement changes only the targeted field
(`text` gets the fragment appended, `audio` is set, `sources` are replaced)
while every other message and field is preserved; the input list itself, being
a value, is never mutated. -/
theorem C10_messageOps_frame :
    (∀ (prev : List Msg) (t : Nat) (txt : List Char) (u : String) (items : List SourceItem),
      (∀ m ∈ prev, m.turnId ≠ some t) →
      appendDeltaByTurnId prev t txt = prev ∧
      updateAudioByTurnId prev t u = prev ∧
      setSourcesByTurnId prev t items = prev)
    ∧ (∀ (pre : List Msg) (m : Msg) (post : List Msg) (t : Nat) (txt : List Char) (u : String)
        (items : List SourceItem),
      (∀ m2 ∈ pre, m2.turnId ≠ some t) → m.turnId = some t →
      appendDeltaByTurnId (pre ++ m :: post) t txt =
        pre ++ { m with text := m.text ++ txt } :: post ∧
      updateAudioByTurnId (pre ++ m :: post) t u =
        pre ++ { m with audio := some u } :: post ∧
      setSourcesByTurnId (pre ++ m :: post) t items =
        pre ++ { m with sources := items } :: post) := by
  constructor
  · intro prev t txt u items h
    induction prev with
    | nil => exact ⟨rfl, rfl, rfl⟩
    | cons m rest ih =>
      have hm : m.turnId ≠ some t := h m (List.mem_cons_self _ _)
      have hrest := ih (fun m2 hm2 => h m2 (List.mem_cons_of_mem _ hm2))
      refine ⟨?_, ?_, ?_⟩
      · simp [appendDeltaByTurnId, hm, hrest.1]
      · simp [updateAudioByTurnId, hm, hrest.2.1]
      · simp [setSourcesByTurnId, hm, hrest.2.2]
  · intro pre m post t txt u items hpre hm
    induction pre with
    | nil =>
      refine ⟨?_, ?_, ?_⟩
      · simp [appendDeltaByTurnId, hm]
      · simp [updateAudioByTurnId, hm]
      · simp [setSourcesByTurnId, hm]
    | cons m0 rest ih =>
      have hm0 : m0.turnId ≠ some t := hpre m0 (List.mem_cons_self _ _)
      have hrest := ih (fun m2 hm2 => hpre m2 (List.mem_cons_of_mem _ hm2))
      refine ⟨?_, ?_, ?_⟩
      · simp [appendDeltaByTurnId, hm0, hrest.1]
      · simp [updateAudioByTurnId, hm0, hrest.2.1]
      · simp [setSourcesByTurnId, hm0, hrest.2.2]

theorem C10_messageOps_frame_witness :
    (appendDeltaByTurnId [⟨Role.user, "You", "q".toList, none, none, []⟩] 7 "x".toList =
        [⟨Role.user, "You", "q".toList, none, none, []⟩] ∧
      updateAudioByTurnId [⟨Role.user, "You", "q".toList, none, none, []⟩] 7 "a.mp3" =
        [⟨Role.user, "You", "q".toList, none, none, []⟩] ∧
      setSourcesByTurnId [⟨Role.user, "You", "q".toList, none, none, []⟩] 7 [] =
        [⟨Role.user, "You", "q".toList, none, none, []⟩])
    ∧ (appendDeltaByTurnId
        ([⟨Role.user, "You", "q".toList, none, none, []⟩] ++
          ⟨Role.assistant, "A", "hi".toList, some 7, none, []⟩ :: []) 7 "x".toList =
        [⟨Role.user, "You", "q".toList, none, none, []⟩] ++
          ⟨Role.assistant, "A", "hix".toList, some 7, none, []⟩ :: [] ∧
      updateAudioByTurnId
        ([⟨Role.user, "You", "q".toList, none, none, []⟩] ++
          ⟨Role.assistant, "A", "hi".toList, some 7, none, []⟩ :: []) 7 "a.mp3" =
        [⟨Role.user, "You", "q".toList, none, none, []⟩] ++
          ⟨Role.assistant, "A", "hi".toList, some 7, some "a.mp3", []⟩ :: [] ∧
      setSourcesByTurnId
        ([⟨Role.user, "You", "q".toList, none, none, []⟩] ++
          ⟨Role.assistant, "A", "hi".toList, some 7, none, []⟩ :: []) 7 [⟨"t", "s", none⟩] =
        [⟨Role.user, "You", "q".toList, none, none, []⟩] ++
          ⟨Role.assistant, "A", "hi".toList, some 7, none, [⟨"t", "s", none⟩]⟩ :: []) :=
  ⟨C10_messageOps_frame.1 [⟨Role.user, "You", "q".toList, none, none, []⟩] 7 "x".toList "a.mp3" []
     (by decide),
   C10_messageOps_frame.2 [⟨Role.user, "You", "q".toList, none, none, []⟩]
     ⟨Role.assistant, "A", "hi".toList, some 7, none, []⟩ [] 7 "x".toList "a.mp3"
     [⟨"t", "s", none⟩] (by decide) (by decide)⟩

theorem scheduleFlush_fields (s : Sys) :
    (scheduleFlush s).messages = s.messages ∧ (scheduleFlush s).buf = s.buf ∧
    (scheduleFlush s).firstSeen = s.firstSeen ∧ (scheduleFlush s).turnStart = s.turnStart ∧
    (scheduleFlush s).streaming = s.streaming ∧ (scheduleFlush s).clock = s.clock ∧
    (scheduleFlush s).typing = s.typing := by
  by_cases h : s.rafPending <;> simp [scheduleFlush, h]

theorem flushStep_fields (s : Sys) :
    (flushStep s).messages = flushMessages s.messages s.buf ∧ (flushStep s).buf = [] ∧
    (flushStep s).turnStart = s.turnStart ∧ (flushStep s).streaming = s.streaming ∧
    (flushStep s).clock = s.clock ∧ (flushStep s).rafPending = s.rafPending ∧
    (flushStep s).timeouts = s.timeouts := by
  cases hst : s.streaming with
  | none => simp [flushStep, hst]
  | some a =>
    by_cases hp : a ∉ s.firstSeen ∧ bufHasText s.buf a = true <;> simp [flushStep, hst, hp]

theorem flushStep_firstSeen (s : Sys) :
    (flushStep s).firstSeen =
      (match s.streaming with
       | some a =>
         if a ∉ s.firstSeen ∧ bufHasText s.buf a = true then setInsert s.firstSeen a
         else s.firstSeen
       | none => s.firstSeen) := by
  cases hst : s.streaming with
  | none => simp [flushStep, hst]
  | some a =>
    by_cases hp : a ∉ s.firstSeen ∧ bufHasText s.buf a = true <;> simp [flushStep, hst, hp]

theorem deltaStep_fields (s : Sys) (id : Nat) (txt : List Char) (au : Option String)
    (an : Option (String × String)) :
    (deltaStep s id txt au an).buf = (if txt = [] then s.buf else bufAppend s.buf id txt) ∧
    (deltaStep s id txt au an).messages.map mProj = s.messages.map mProj ∧
    (deltaStep s id txt au an).firstSeen = s.firstSeen ∧
    (deltaStep s id txt au an).turnStart = s.turnStart ∧
    (deltaStep s id txt au an).streaming = s.streaming ∧
    (deltaStep s id txt au an).clock = s.clock := by
  unfold deltaStep
  by_cases htxt : txt = [] <;>
    cases au with
    | none =>
      cases an with
      | none =>
        simp [htxt, scheduleFlush_fields]
      | some pr =>
        simp [htxt, scheduleFlush_fields, mProj_updateAudioOnLatestBySpeaker]
    | some u =>
      by_cases hu : u = "" <;>
        cases an with
        | none =>
          simp [htxt, hu, scheduleFlush_fields, mProj_updateAudioByTurnId]
        | some pr =>
          simp [htxt, hu, scheduleFlush_fields, mProj_updateAudioByTurnId,
            mProj_updateAudioOnLatestBySpeaker]

theorem endturnStep_fields (s : Sys) (id : Nat) :
    (endturnStep s id).messages = flushMessages s.messages s.buf ∧
    (endturnStep s id).buf = [] ∧
    (endturnStep s id).firstSeen = s.firstSeen ∧
    (endturnStep s id).clock = s.clock ∧
    (endturnStep s id).rafPending = s.rafPending ∧
    (endturnStep s id).timeouts = s.timeouts := by
  unfold endturnStep
  by_cases hb : s.buf = []
  · by_cases hstr : s.streaming = some id <;> simp [hb, hstr, flushMessages]
  · by_cases hstr : s.streaming = some id <;> simp [hb, hstr]

theorem errorStep_fields (s : Sys) :
    (errorStep s).messages = s.messages ∧ (errorStep s).buf = s.buf ∧
    (errorStep s).firstSeen = s.firstSeen ∧ (errorStep s).clock = s.clock ∧
    (errorStep s).rafPending = s.rafPending ∧ (errorStep s).timeouts = s.timeouts ∧
    (errorStep s).streaming = none ∧ (errorStep s).typing = none ∧
    (errorStep s).loading = false := by
  unfold errorStep
  cases hst : s.streaming <;> simp [hst]

theorem timerStep_fields (s : Sys) (i : Nat) :
    (timerStep s i).messages = s.messages ∧ (timerStep s i).buf = s.buf ∧
    (timerStep s i).firstSeen = s.firstSeen ∧ (timerStep s i).turnStart = s.turnStart ∧
    (timerStep s i).streaming = s.streaming ∧ (timerStep s i).clock = s.clock ∧
    (timerStep s i).typing = s.typing := by
  unfold timerStep
  cases hg : s.timeouts.get? i with
  | none => simp
  | some fire =>
    by_cases hf : fire ≤ s.clock <;> simp [hf, scheduleFlush_fields]

theorem deltasFor_cons (t : Nat) (a : Act) (acts : List Act) :
    deltasFor t (a :: acts) = deltaTextOf t a ++ deltasFor t acts := by
  cases a <;> simp [deltasFor, deltaTextOf]

theorem C1_flush (s : Sys) (t : Nat) (h1 : countTurn s.messages t = 1)
    (h4 : bufKeysNodup s.buf) :
    countTurn (flushStep s).messages t = 1 ∧ bufKeysNodup (flushStep s).buf ∧
    textOf (flushStep s) t ++ bufGet (flushStep s).buf t = textOf s t ++ bufGet s.buf t := by
  obtain ⟨hm, hb, -, -, -, -, -⟩ := flushStep_fields s
  refine ⟨?_, ?_, ?_⟩
  · rw [hm, flushMessages_countTurn]; exact h1
  · rw [hb]; simp [bufKeysNodup]
  · show textOfMsgs (flushStep s).messages t ++ bufGet (flushStep s).buf t = _
    rw [hm, hb, flushMessages_textOf s.buf s.messages t h4 (by rw [h1]; exact one_ne_zero)]
    simp [bufGet, textOf]

theorem C1_step (t : Nat) (s : Sys) (a : Act)
    (h1 : countTurn s.messages t = 1) (h4 : bufKeysNodup s.buf)
    (hr : a ≠ Act.reset) (ht : ∀ sp, a ≠ Act.turn t sp) :
    countTurn (applyAct s a).messages t = 1 ∧ bufKeysNodup (applyAct s a).buf ∧
    textOf (applyAct s a) t ++ bufGet (applyAct s a).buf t =
      (textOf s t ++ bufGet s.buf t) ++ deltaTextOf t a := by
  cases a with
  | turn id sp =>
    have hid : id ≠ t := fun he => (ht sp) (by rw [he])
    have hnew : countTurn [(⟨Role.assistant, sp, [], some id, none, []⟩ : Msg)] t = 0 := by
      simp [countTurn, hid]
    refine ⟨?_, h4, ?_⟩
    · show countTurn (s.messages ++ [⟨Role.assistant, sp, [], some id, none, []⟩]) t = 1
      rw [countTurn_append, hnew, h1]
    · show textOfMsgs (s.messages ++ [⟨Role.assistant, sp, [], some id, none, []⟩]) t
          ++ bufGet s.buf t = _
      rw [textOfMsgs_append_left _ _ _ (by rw [h1]; exact one_ne_zero)]
      simp [deltaTextOf, textOf]
  | delta id txt au an =>
    simp only [applyAct]
    obtain ⟨hbuf, hmap, -, -, -, -⟩ := deltaStep_fields s id txt au an
    have hcnt : countTurn (deltaStep s id txt au an).messages t = 1 := by
      rw [countTurn_eq_of_mProj _ _ hmap t]; exact h1
    have htxt : textOfMsgs (deltaStep s id txt au an).messages t = textOfMsgs s.messages t :=
      textOfMsgs_eq_of_mProj _ _ hmap t
    refine ⟨hcnt, ?_, ?_⟩
    · rw [hbuf]
      by_cases he : txt = []
      · simpa [he] using h4
      · simp only [he, if_false]
        exact bufKeysNodup_bufAppend id txt h4
    · show textOfMsgs (deltaStep s id txt au an).messages t
          ++ bufGet (deltaStep s id txt au an).buf t = _
      rw [htxt, hbuf]
      by_cases he : txt = []
      · simp [he, deltaTextOf, textOf]
      · by_cases hid : id = t
        · subst hid
          rw [if_neg he, bufGet_bufAppend_self]
          simp [deltaTextOf, textOf, List.append_assoc]
        · rw [if_neg he, bufGet_bufAppend_ne _ _ _ _ hid]
          simp [deltaTextOf, hid, textOf]
  | sources id items =>
    simp only [applyAct]
    have hmap : (sourcesStep s id items).messages.map mProj = s.messages.map mProj :=
      mProj_setSourcesByTurnId s.messages id items
    refine ⟨?_, h4, ?_⟩
    · rw [countTurn_eq_of_mProj _ _ hmap t]; exact h1
    · show textOfMsgs (sourcesStep s id items).messages t ++ bufGet s.buf t = _
      rw [textOfMsgs_eq_of_mProj _ _ hmap t]
      simp [deltaTextOf, textOf]
  | endturn id =>
    simp only [applyAct]
    obtain ⟨hm, hb, -, -, -, -⟩ := endturnStep_fields s id
    refine ⟨?_, ?_, ?_⟩
    · rw [hm, flushMessages_countTurn]; exact h1
    · rw [hb]; simp [bufKeysNodup]
    · show textOfMsgs (endturnStep s id).messages t ++ bufGet (endturnStep s id).buf t = _
      rw [hm, hb, flushMessages_textOf s.buf s.messages t h4 (by rw [h1]; exact one_ne_zero)]
      simp [bufGet, deltaTextOf, textOf]
  | error =>
    simp only [applyAct]
    obtain ⟨hm, hb, -, -, -, -, -, -, -⟩ := errorStep_fields s
    refine ⟨?_, ?_, ?_⟩
    · rw [hm]; exact h1
    · rw [hb]; exact h4
    · show textOfMsgs (errorStep s).messages t ++ bufGet (errorStep s).buf t = _
      rw [hm, hb]
      simp [deltaTextOf, textOf]
  | frame =>
    show countTurn (frameStep s).messages t = 1 ∧ bufKeysNodup (frameStep s).buf ∧
      textOf (frameStep s) t ++ bufGet (frameStep s).buf t = _
    by_cases hraf : s.rafPending = false
    · simp [frameStep, hraf, deltaTextOf, h1, h4, textOf]
    · cases hst : s.streaming with
      | none =>
        have hf : frameStep s = flushStep { s with rafPending := false } := by
          simp [frameStep, hraf, hst]
        rw [hf]
        have := C1_flush { s with rafPending := false } t h1 h4
        simpa [deltaTextOf] using this
      | some a =>
        by_cases hfs : a ∈ s.firstSeen
        · have hf : frameStep s = flushStep { s with rafPending := false } := by
            simp [frameStep, hraf, hst, hfs]
          rw [hf]
          have := C1_flush { s with rafPending := false } t h1 h4
          simpa [deltaTextOf] using this
        · by_cases hd : s.clock - (mapGetN s.turnStart a).getD 0 < MIN_TYPING_DWELL_MS
          · have hf : frameStep s = { s with rafPending := false, timeouts := s.timeouts ++
                [s.clock + (MIN_TYPING_DWELL_MS - (s.clock - (mapGetN s.turnStart a).getD 0))] } := by
              simp [frameStep, hraf, hst, hfs, hd]
            rw [hf]
            simp [deltaTextOf, h1, h4, textOf]
          · have hf : frameStep s = flushStep { s with rafPending := false } := by
              simp [frameStep, hraf, hst, hfs, hd]
            rw [hf]
            have := C1_flush { s with rafPending := false } t h1 h4
            simpa [deltaTextOf] using this
  | timer i =>
    simp only [applyAct]
    obtain ⟨hm, hb, -, -, -, -, -⟩ := timerStep_fields s i
    refine ⟨?_, ?_, ?_⟩
    · rw [hm]; exact h1
    · rw [hb]; exact h4
    · show textOfMsgs (timerStep s i).messages t ++ bufGet (timerStep s i).buf t = _
      rw [hm, hb]
      simp [deltaTextOf, textOf]
  | tick d =>
    exact ⟨h1, h4, by simp [applyAct, tickStep, deltaTextOf, textOf]⟩
  | reset => exact absurd rfl hr

theorem C1_run (t : Nat) : ∀ (acts : List Act) (s : Sys),
    countTurn s.messages t = 1 → bufKeysNodup s.buf →
    Act.reset ∉ acts → (∀ sp, Act.turn t sp ∉ acts) →
    countTurn (run s acts).messages t = 1 ∧ bufKeysNodup (run s acts).buf ∧
    textOf (run s acts) t ++ bufGet (run s acts).buf t =
      (textOf s t ++ bufGet s.buf t) ++ deltasFor t acts := by
  intro acts
  induction acts with
  | nil =>
    intro s h1 h4 _ _
    exact ⟨h1, h4, by simp [run, deltasFor]⟩
  | cons a acts ih =>
    intro s h1 h4 hres hturn
    have hra : a ≠ Act.reset := fun he => hres (he ▸ List.mem_cons_self _ _)
    have hta : ∀ sp, a ≠ Act.turn t sp := fun sp he => hturn sp (he ▸ List.mem_cons_self _ _)
    obtain ⟨k1, k4, keq⟩ := C1_step t s a h1 h4 hra hta
    have hres2 : Act.reset ∉ acts := fun h => hres (List.mem_cons_of_mem _ h)
    have hturn2 : ∀ sp, Act.turn t sp ∉ acts := fun sp h => hturn sp (List.mem_cons_of_mem _ h)
    obtain ⟨r1, r4, req⟩ := ih (applyAct s a) k1 k4 hres2 hturn2
    refine ⟨r1, r4, ?_⟩
    have hrun : run s (a :: acts) = run (applyAct s a) acts := rfl
    rw [hrun, req, keq, deltasFor_cons, List.append_assoc]

/-- C1: for a turn present in the transcript exactly once (as the `turn` event
creates it: empty text, empty pending buffer), any interleaving of delta
arrivals for that turn with flushes (animation frames, dwell timeouts, clock
advance), deltas of other turns, other turns starting, `sources`, `endturn`
and `error` events keeps rendered-text-plus-pending-buffer equal to the
concatenation of that turn's delivered fragments in arrival order; in
particular once the buffer has been drained (after all flushes) the rendered
text IS the concatenation `f1 ++ f2 ++ … ++ fn` — never a reordering, however
the fragments were grouped into flushes and whether or not they arrived within
the dwell window.  (Fragments are the texts `appendDelta` buffers, i.e. the
`unwrapJson` text of each `delta` event.) -/
theorem C1_delta_order (s : Sys) (t : Nat) (acts : List Act)
    (hcount : countTurn s.messages t = 1) (htext : textOf s t = [])
    (hbuf : bufGet s.buf t = []) (hnodup : bufKeysNodup s.buf)
    (hnoreset : Act.reset ∉ acts) (hnoturn : ∀ sp, Act.turn t sp ∉ acts) :
    textOf (run s acts) t ++ bufGet (run s acts).buf t = deltasFor t acts ∧
    (bufGet (run s acts).buf t = [] → textOf (run s acts) t = deltasFor t acts) := by
  obtain ⟨-, -, heq⟩ := C1_run t acts s hcount hnodup hnoreset hnoturn
  rw [htext, hbuf] at heq
  simp only [List.append_nil, List.nil_append] at heq
  refine ⟨heq, fun hb => ?_⟩
  rw [hb, List.append_nil] at heq
  exact heq

theorem C1_delta_order_witness :
    textOf (run (turnStep ⟨0, [], [], false, [], [], [], none, none, false⟩ 1 "A")
        [Act.delta 1 "Yo".toList none none, Act.delta 1 "ur".toList none none,
         Act.tick 120, Act.frame, Act.delta 1 "!".toList none none, Act.endturn 1]) 1 ++
      bufGet (run (turnStep ⟨0, [], [], false, [], [], [], none, none, false⟩ 1 "A")
        [Act.delta 1 "Yo".toList none none, Act.delta 1 "ur".toList none none,
         Act.tick 120, Act.frame, Act.delta 1 "!".toList none none, Act.endturn 1]).buf 1 =
      deltasFor 1
        [Act.delta 1 "Yo".toList none none, Act.delta 1 "ur".toList none none,
         Act.tick 120, Act.frame, Act.delta 1 "!".toList none none, Act.endturn 1] ∧
    (bufGet (run (turnStep ⟨0, [], [], false, [], [], [], none, none, false⟩ 1 "A")
        [Act.delta 1 "Yo".toList none none, Act.delta 1 "ur".toList none none,
         Act.tick 120, Act.frame, Act.delta 1 "!".toList none none, Act.endturn 1]).buf 1 = [] →
      textOf (run (turnStep ⟨0, [], [], false, [], [], [], none, none, false⟩ 1 "A")
        [Act.delta 1 "Yo".toList none none, Act.delta 1 "ur".toList none none,
         Act.tick 120, Act.frame, Act.delta 1 "!".toList none none, Act.endturn 1]) 1 =
      deltasFor 1
        [Act.delta 1 "Yo".toList none none, Act.delta 1 "ur".toList none none,
         Act.tick 120, Act.frame, Act.delta 1 "!".toList none none, Act.endturn 1]) :=
  C1_delta_order (turnStep ⟨0, [], [], false, [], [], [], none, none, false⟩ 1 "A") 1
    [Act.delta 1 "Yo".toList none none, Act.delta 1 "ur".toList none none,
     Act.tick 120, Act.frame, Act.delta 1 "!".toList none none, Act.endturn 1]
    (by decide) (by decide) (by decide) (by decide) (by decide) (by intro sp; simp)

/-- C2: flush-before-flag.  In every event-loop step, a turn's first-reveal
flag (`firstDeltaSeenRef` membership) can only be set by the animation-frame
flush, and in the very step that sets it the turn was the active streaming
turn with nonempty buffered text, all of that text is moved into the rendered
transcript, and the buffer is left empty — the flag is never set before the
buffered text is rendered.  Moreover a delta arriving at any time (dwell
window included) only appends to the turn's pending accumulator and renders
nothing, so fragments buffered during the dwell are revealed atomically by
the single deferred flush. -/
theorem C2_flush_before_flag :
    (∀ (s : Sys) (act : Act) (t : Nat),
      countTurn s.messages t = 1 → bufKeysNodup s.buf →
      t ∉ s.firstSeen → t ∈ (applyAct s act).firstSeen →
      act = Act.frame ∧ s.streaming = some t ∧ bufGet s.buf t ≠ [] ∧
      textOf (applyAct s act) t = textOf s t ++ bufGet s.buf t ∧
      bufGet (applyAct s act).buf t = [])
    ∧ (∀ (s : Sys) (id : Nat) (txt : List Char),
      (deltaStep s id txt none none).messages = s.messages ∧
      bufGet (deltaStep s id txt none none).buf id = bufGet s.buf id ++ txt) := by
  constructor
  · intro s act t hcount hnodup hout hin
    cases act with
    | turn id sp =>
      exfalso
      have : t ∈ setErase s.firstSeen id := hin
      exact hout ((mem_setErase _ _ _).mp this).1
    | delta id txt au an =>
      exfalso
      obtain ⟨-, -, hfs, -, -, -⟩ := deltaStep_fields s id txt au an
      rw [show (applyAct s (Act.delta id txt au an)).firstSeen =
        (deltaStep s id txt au an).firstSeen from rfl, hfs] at hin
      exact hout hin
    | sources id items => exact absurd hin hout
    | endturn id =>
      exfalso
      obtain ⟨-, -, hfs, -, -, -⟩ := endturnStep_fields s id
      rw [show (applyAct s (Act.endturn id)).firstSeen = (endturnStep s id).firstSeen from rfl,
        hfs] at hin
      exact hout hin
    | error =>
      exfalso
      obtain ⟨-, -, hfs, -, -, -, -, -, -⟩ := errorStep_fields s
      rw [show (applyAct s Act.error).firstSeen = (errorStep s).firstSeen from rfl, hfs] at hin
      exact hout hin
    | timer i =>
      exfalso
      obtain ⟨-, -, hfs, -, -, -, -⟩ := timerStep_fields s i
      rw [show (applyAct s (Act.timer i)).firstSeen = (timerStep s i).firstSeen from rfl,
        hfs] at hin
      exact hout hin
    | tick d => exact absurd hin hout
    | reset => exact absurd hin (List.not_mem_nil t)
    | frame =>
      have hframe : applyAct s Act.frame = frameStep s := rfl
      rw [hframe] at hin ⊢
      by_cases hraf : s.rafPending = false
      · rw [show frameStep s = s by simp [frameStep, hraf]] at hin
        exact absurd hin hout
      · have hflags := flushStep_firstSeen { s with rafPending := false }
        cases hst : s.streaming with
        | none =>
          exfalso
          have hf : frameStep s = flushStep { s with rafPending := false } := by
            simp [frameStep, hraf, hst]
          rw [hf] at hin
          rw [hflags] at hin
          simp only [show ({ s with rafPending := false } : Sys).streaming = s.streaming from rfl,
            hst] at hin
          exact hout hin
        | some a =>
          by_cases hfs : a ∈ s.firstSeen
          · exfalso
            have hf : frameStep s = flushStep { s with rafPending := false } := by
              simp [frameStep, hraf, hst, hfs]
            rw [hf, hflags] at hin
            simp only [show ({ s with rafPending := false } : Sys).streaming = s.streaming from rfl,
              hst] at hin
            by_cases hp : a ∉ s.firstSeen ∧ bufHasText s.buf a = true
            · exact absurd hfs hp.1
            · simp only [show ({ s with rafPending := false } : Sys).firstSeen = s.firstSeen
                from rfl, hp, if_false] at hin
              exact hout hin
          · by_cases hd : s.clock - (mapGetN s.turnStart a).getD 0 < MIN_TYPING_DWELL_MS
            · exfalso
              have hf : frameStep s = { s with rafPending := false, timeouts := s.timeouts ++
                  [s.clock + (MIN_TYPING_DWELL_MS -
                    (s.clock - (mapGetN s.turnStart a).getD 0))] } := by
                simp [frameStep, hraf, hst, hfs, hd]
              rw [hf] at hin
              exact hout hin
            · have hf : frameStep s = flushStep { s with rafPending := false } := by
                simp [frameStep, hraf, hst, hfs, hd]
              rw [hf, hflags] at hin
              simp only [show ({ s with rafPending := false } : Sys).streaming = s.streaming
                from rfl, hst] at hin
              by_cases hp : a ∉ s.firstSeen ∧ bufHasText s.buf a = true
              · simp only [hp, if_true] at hin
                have hta : t = a := by
                  rcases (mem_setInsert _ _ _).mp hin with h | h
                  · exact absurd h hout
                  · exact h
                subst hta
                obtain ⟨hmsg, hbuf2, -, -, -, -, -⟩ :=
                  flushStep_fields { s with rafPending := false }
                refine ⟨rfl, rfl, ?_, ?_, ?_⟩
                · exact (bufHasText_iff _ hnodup).mp hp.2
                · rw [show textOf (frameStep s) _ = textOfMsgs (frameStep s).messages _ from rfl,
                    hf, hmsg]
                  exact flushMessages_textOf s.buf s.messages _ hnodup
                    (by rw [hcount]; exact one_ne_zero)
                · rw [hf, hbuf2]; rfl
              · exfalso
                simp only [hp, if_false] at hin
                exact hout hin
  · intro s id txt
    by_cases htxt : txt = []
    · simp [deltaStep, htxt]
    · constructor
      · simp [deltaStep, htxt, scheduleFlush_fields]
      · simp [deltaStep, htxt, scheduleFlush_fields, bufGet_bufAppend_self]

theorem C2_flush_before_flag_witness :
    (1 ∉ (run ⟨0, [], [], false, [], [], [], none, none, false⟩
        [Act.turn 1 "A", Act.delta 1 "hi".toList none none, Act.tick 120]).firstSeen ∧
      1 ∈ (applyAct (run ⟨0, [], [], false, [], [], [], none, none, false⟩
        [Act.turn 1 "A", Act.delta 1 "hi".toList none none, Act.tick 120]) Act.frame).firstSeen)
    ∧ (Act.frame = Act.frame ∧
      (run ⟨0, [], [], false, [], [], [], none, none, false⟩
        [Act.turn 1 "A", Act.delta 1 "hi".toList none none, Act.tick 120]).streaming = some 1 ∧
      bufGet (run ⟨0, [], [], false, [], [], [], none, none, false⟩
        [Act.turn 1 "A", Act.delta 1 "hi".toList none none, Act.tick 120]).buf 1 ≠ [] ∧
      textOf (applyAct (run ⟨0, [], [], false, [], [], [], none, none, false⟩
          [Act.turn 1 "A", Act.delta 1 "hi".toList none none, Act.tick 120]) Act.frame) 1 =
        textOf (run ⟨0, [], [], false, [], [], [], none, none, false⟩
          [Act.turn 1 "A", Act.delta 1 "hi".toList none none, Act.tick 120]) 1 ++
        bufGet (run ⟨0, [], [], false, [], [], [], none, none, false⟩
          [Act.turn 1 "A", Act.delta 1 "hi".toList none none, Act.tick 120]).buf 1 ∧
      bufGet (applyAct (run ⟨0, [], [], false, [], [], [], none, none, false⟩
        [Act.turn 1 "A", Act.delta 1 "hi".toList none none, Act.tick 120]) Act.frame).buf 1
        = []) :=
  ⟨⟨by decide, by decide⟩,
   C2_flush_before_flag.1
     (run ⟨0, [], [], false, [], [], [], none, none, false⟩
       [Act.turn 1 "A", Act.delta 1 "hi".toList none none, Act.tick 120])
     Act.frame 1 (by decide) (by decide) (by decide) (by decide)⟩

/-- C7: processing `endturn` flushes remaining buffered text into the
transcript immediately and unconditionally — there is no clock or dwell
hypothesis anywhere, the dwell check is bypassed — and leaves the pending
buffer empty; when the turn's pending buffer was already empty the flush does
not change that turn's rendered text, and when the whole buffer was empty the
message list is untouched (no duplicate text, and the model is a total
function, so no error is raised). -/
theorem C7_endturn_flush (s : Sys) (t id : Nat)
    (hcount : countTurn s.messages t = 1) (hnodup : bufKeysNodup s.buf) :
    textOf (endturnStep s id) t = textOf s t ++ bufGet s.buf t ∧
    (endturnStep s id).buf = [] ∧
    (bufGet s.buf t = [] → textOf (endturnStep s id) t = textOf s t) ∧
    (s.buf = [] → (endturnStep s id).messages = s.messages) := by
  obtain ⟨hm, hb, -, -, -, -⟩ := endturnStep_fields s id
  have htext : textOf (endturnStep s id) t = textOf s t ++ bufGet s.buf t := by
    show textOfMsgs (endturnStep s id).messages t = _
    rw [hm]
    exact flushMessages_textOf s.buf s.messages t hnodup (by rw [hcount]; exact one_ne_zero)
  refine ⟨htext, hb, fun he => ?_, fun he => ?_⟩
  · rw [htext, he, List.append_nil]
  · rw [hm, he]; rfl

theorem C7_endturn_flush_witness :
    textOf (endturnStep (run ⟨0, [], [], false, [], [], [], none, none, false⟩
        [Act.turn 1 "A", Act.delta 1 "hi".toList none none]) 1) 1 =
      textOf (run ⟨0, [], [], false, [], [], [], none, none, false⟩
        [Act.turn 1 "A", Act.delta 1 "hi".toList none none]) 1 ++
      bufGet (run ⟨0, [], [], false, [], [], [], none, none, false⟩
        [Act.turn 1 "A", Act.delta 1 "hi".toList none none]).buf 1 ∧
    (endturnStep (run ⟨0, [], [], false, [], [], [], none, none, false⟩
        [Act.turn 1 "A", Act.delta 1 "hi".toList none none]) 1).buf = [] ∧
    (bufGet (run ⟨0, [], [], false, [], [], [], none, none, false⟩
        [Act.turn 1 "A", Act.delta 1 "hi".toList none none]).buf 1 = [] →
      textOf (endturnStep (run ⟨0, [], [], false, [], [], [], none, none, false⟩
          [Act.turn 1 "A", Act.delta 1 "hi".toList none none]) 1) 1 =
        textOf (run ⟨0, [], [], false, [], [], [], none, none, false⟩
          [Act.turn 1 "A", Act.delta 1 "hi".toList none none]) 1) ∧
    ((run ⟨0, [], [], false, [], [], [], none, none, false⟩
        [Act.turn 1 "A", Act.delta 1 "hi".toList none none]).buf = [] →
      (endturnStep (run ⟨0, [], [], false, [], [], [], none, none, false⟩
          [Act.turn 1 "A", Act.delta 1 "hi".toList none none]) 1).messages =
        (run ⟨0, [], [], false, [], [], [], none, none, false⟩
          [Act.turn 1 "A", Act.delta 1 "hi".toList none none]).messages) :=
  C7_endturn_flush (run ⟨0, [], [], false, [], [], [], none, none, false⟩
      [Act.turn 1 "A", Act.delta 1 "hi".toList none none]) 1 1
    (by decide) (by decide)

/-- C9: processing an `error` stream event clears the loading flag, the
typing-speaker indicator and the active streaming-turn id, and leaves the
message list — all already-rendered text — exactly as it was (the pending
buffer too); the handler is a total function, so it throws nothing. -/
theorem C9_error_preserves_transcript (s : Sys) :
    (errorStep s).loading = false ∧ (errorStep s).typing = none ∧
    (errorStep s).streaming = none ∧ (errorStep s).messages = s.messages ∧
    (errorStep s).buf = s.buf := by
  obtain ⟨hm, hb, -, -, -, -, hstr, hty, hld⟩ := errorStep_fields s
  exact ⟨hld, hty, hstr, hm, hb⟩

theorem C3Inv_after_flush (t st : Nat) (s : Sys)
    (hinv : C3Inv t st s) (hge : st + MIN_TYPING_DWELL_MS ≤ s.clock) :
    C3Inv t st (flushStep s) := by
  obtain ⟨h1, h2, h3, h4, h5, h6⟩ := hinv
  obtain ⟨hm, hb, hts, hstr, hclk, -, -⟩ := flushStep_fields s
  refine ⟨?_, ?_, ?_, ?_, ?_, ?_⟩
  · rw [hm, flushMessages_countTurn]; exact h1
  · rw [hts]; exact h2
  · rw [hclk]; exact h3
  · intro hc; rw [hclk] at hc; omega
  · intro a ha
    rw [hstr] at ha
    obtain ⟨sa, hsa1, hsa2, hsa3, -⟩ := h5 a ha
    exact ⟨sa, by rw [hts]; exact hsa1, hsa2, by rw [hclk]; exact hsa3,
      fun _ => by rw [hclk]; exact hge⟩
  · rw [hstr]; exact h6

theorem C3Inv_step (t st : Nat) (s : Sys) (act : Act)
    (hinv : C3Inv t st s)
    (hend : ∀ id, act ≠ Act.endturn id) (herr : act ≠ Act.error) (hres : act ≠ Act.reset)
    (hturn : ∀ sp, act ≠ Act.turn t sp) :
    C3Inv t st (applyAct s act) := by
  obtain ⟨h1, h2, h3, h4, h5, h6⟩ := hinv
  cases act with
  | turn id sp =>
    have hid : id ≠ t := fun he => (hturn sp) (by rw [he])
    simp only [applyAct]
    refine ⟨?_, ?_, h3, ?_, ?_, ?_⟩
    · show countTurn (s.messages ++ [⟨Role.assistant, sp, [], some id, none, []⟩]) t = 1
      rw [countTurn_append, h1]
      simp [countTurn, hid]
    · show mapGetN (mapSetN s.turnStart id s.clock) t = some st
      rw [mapGetN_mapSetN_ne _ _ _ _ hid]; exact h2
    · intro hc
      obtain ⟨ht1, ht2⟩ := h4 hc
      constructor
      · show textOfMsgs (s.messages ++ [⟨Role.assistant, sp, [], some id, none, []⟩]) t = []
        rw [textOfMsgs_append_left _ _ _ (by rw [h1]; exact one_ne_zero)]
        exact ht1
      · intro hmem
        exact ht2 ((mem_setErase _ _ _).mp hmem).1
    · intro a ha
      have haid : a = id := by
        have : some id = some a := ha
        exact (Option.some_injective _ this).symm
      subst haid
      refine ⟨s.clock, mapGetN_mapSetN_self _ _ _, h3, le_refl _, ?_⟩
      intro hmem
      exact absurd rfl ((mem_setErase _ _ _).mp hmem).2
    · show some id ≠ none
      simp
  | delta id txt au an =>
    simp only [applyAct]
    obtain ⟨hbuf, hmap, hfs, hts, hstr, hclk⟩ := deltaStep_fields s id txt au an
    refine ⟨?_, ?_, ?_, ?_, ?_, ?_⟩
    · rw [countTurn_eq_of_mProj _ _ hmap]; exact h1
    · rw [hts]; exact h2
    · rw [hclk]; exact h3
    · intro hc
      rw [hclk] at hc
      obtain ⟨ht1, ht2⟩ := h4 hc
      exact ⟨by rw [show textOf (deltaStep s id txt au an) t =
          textOfMsgs (deltaStep s id txt au an).messages t from rfl,
          textOfMsgs_eq_of_mProj _ _ hmap]; exact ht1,
        by rw [hfs]; exact ht2⟩
    · intro a ha
      rw [hstr] at ha
      obtain ⟨sa, hsa1, hsa2, hsa3, hsa4⟩ := h5 a ha
      exact ⟨sa, by rw [hts]; exact hsa1, hsa2, by rw [hclk]; exact hsa3,
        fun hm => by rw [hclk]; exact hsa4 (by rw [hfs] at hm; exact hm)⟩
    · rw [hstr]; exact h6
  | sources id items =>
    simp only [applyAct]
    have hmap : (sourcesStep s id items).messages.map mProj = s.messages.map mProj :=
      mProj_setSourcesByTurnId s.messages id items
    refine ⟨?_, h2, h3, ?_, h5, h6⟩
    · rw [countTurn_eq_of_mProj _ _ hmap]; exact h1
    · intro hc
      obtain ⟨ht1, ht2⟩ := h4 hc
      exact ⟨by rw [show textOf (sourcesStep s id items) t =
          textOfMsgs (sourcesStep s id items).messages t from rfl,
          textOfMsgs_eq_of_mProj _ _ hmap]; exact ht1, ht2⟩
  | endturn id => exact absurd rfl (hend id)
  | error => exact absurd rfl herr
  | reset => exact absurd rfl hres
  | frame =>
    simp only [applyAct]
    by_cases hraf : s.rafPending = false
    · rw [show frameStep s = s by simp [frameStep, hraf]]
      exact ⟨h1, h2, h3, h4, h5, h6⟩
    · cases hstr : s.streaming with
      | none => exact absurd hstr h6
      | some a0 =>
        obtain ⟨sa, hg, hstsa, hsac, himpl⟩ := h5 a0 hstr
        by_cases hfs : a0 ∈ s.firstSeen
        · have hge : st + MIN_TYPING_DWELL_MS ≤ s.clock := himpl hfs
          rw [show frameStep s = flushStep { s with rafPending := false } by
            simp [frameStep, hraf, hstr, hfs]]
          exact C3Inv_after_flush t st { s with rafPending := false }
            ⟨h1, h2, h3, h4, h5, h6⟩ hge
        · by_cases hd : s.clock - (mapGetN s.turnStart a0).getD 0 < MIN_TYPING_DWELL_MS
          · rw [show frameStep s = { s with rafPending := false, timeouts := s.timeouts ++
                [s.clock + (MIN_TYPING_DWELL_MS -
                  (s.clock - (mapGetN s.turnStart a0).getD 0))] } by
              simp [frameStep, hraf, hstr, hfs, hd]]
            exact ⟨h1, h2, h3, h4, h5, h6⟩
          · rw [hg] at hd
            simp only [Option.getD_some] at hd
            have hge : st + MIN_TYPING_DWELL_MS ≤ s.clock := by omega
            rw [show frameStep s = flushStep { s with rafPending := false } by
              simp [frameStep, hraf, hstr, hfs, hg, hd]]
            exact C3Inv_after_flush t st { s with rafPending := false }
              ⟨h1, h2, h3, h4, h5, h6⟩ hge
  | timer i =>
    simp only [applyAct]
    obtain ⟨hm, hb, hfs, hts, hstr, hclk, -⟩ := timerStep_fields s i
    refine ⟨?_, ?_, ?_, ?_, ?_, ?_⟩
    · rw [hm]; exact h1
    · rw [hts]; exact h2
    · rw [hclk]; exact h3
    · intro hc
      rw [hclk] at hc
      obtain ⟨ht1, ht2⟩ := h4 hc
      exact ⟨by rw [show textOf (timerStep s i) t = textOfMsgs (timerStep s i).messages t
          from rfl, hm]; exact ht1, by rw [hfs]; exact ht2⟩
    · intro a ha
      rw [hstr] at ha
      obtain ⟨sa, hsa1, hsa2, hsa3, hsa4⟩ := h5 a ha
      exact ⟨sa, by rw [hts]; exact hsa1, hsa2, by rw [hclk]; exact hsa3,
        fun hm2 => by rw [hclk]; exact hsa4 (by rw [hfs] at hm2; exact hm2)⟩
    · rw [hstr]; exact h6
  | tick d =>
    simp only [applyAct]
    refine ⟨h1, h2, by show st ≤ s.clock + d; omega, ?_, ?_, h6⟩
    · intro hc
      have : s.clock < st + MIN_TYPING_DWELL_MS := by
        show _ < _
        have hcd : s.clock + d < st + MIN_TYPING_DWELL_MS := hc
        omega
      exact h4 this
    · intro a ha
      obtain ⟨sa, hsa1, hsa2, hsa3, hsa4⟩ := h5 a ha
      refine ⟨sa, hsa1, hsa2, by show sa ≤ s.clock + d; omega, ?_⟩
      intro hm
      have := hsa4 hm
      show st + MIN_TYPING_DWELL_MS ≤ s.clock + d
      omega

theorem C3Inv_run (t st : Nat) : ∀ (acts : List Act) (s : Sys), C3Inv t st s →
    (∀ id, Act.endturn id ∉ acts) → Act.error ∉ acts → Act.reset ∉ acts →
    (∀ sp, Act.turn t sp ∉ acts) → C3Inv t st (run s acts) := by
  intro acts
  induction acts with
  | nil => intro s hinv _ _ _ _; exact hinv
  | cons a acts ih =>
    intro s hinv hend herr hres hturn
    have h1 : ∀ id, a ≠ Act.endturn id :=
      fun id he => (hend id) (he ▸ List.mem_cons_self _ _)
    have h2 : a ≠ Act.error := fun he => herr (he ▸ List.mem_cons_self _ _)
    have h3 : a ≠ Act.reset := fun he => hres (he ▸ List.mem_cons_self _ _)
    have h4 : ∀ sp, a ≠ Act.turn t sp := fun sp he => (hturn sp) (he ▸ List.mem_cons_self _ _)
    exact ih (applyAct s a) (C3Inv_step t st s a hinv h1 h2 h3 h4)
      (fun id hm => hend id (List.mem_cons_of_mem _ hm))
      (fun hm => herr (List.mem_cons_of_mem _ hm))
      (fun hm => hres (List.mem_cons_of_mem _ hm))
      (fun sp hm => hturn sp (List.mem_cons_of_mem _ hm))

/-- C3 (amended): the claim as stated fails on the code, because the
`endturn` flush (and likewise `error`/`reset` handling) deliberately bypasses
the dwell check — see the counterexample.  What the code does guarantee: as
long as no `endturn` or `error` event is processed, the conversation is not
reset and the turn is not restarted, no visible character of a turn appears
in the transcript before `MIN_TYPING_DWELL_MS = 120` ms have elapsed since
that turn's `turn` event recorded its start time — for every delta arrival
timing and any number of frames, timer callbacks and other turns; and an
animation-frame flush attempted while the active unrevealed turn's dwell has
not elapsed reschedules itself (via `setTimeout`) to fire exactly when the
dwell expires, at start + 120 ms, changing neither the transcript nor any
buffer, flag or timer state beyond the pending-callback bookkeeping. -/
theorem C3_dwell_amended :
    (∀ (s0 : Sys) (t : Nat) (sp : String) (acts : List Act),
      countTurn s0.messages t = 0 →
      (∀ id, Act.endturn id ∉ acts) → Act.error ∉ acts → Act.reset ∉ acts →
      (∀ sp2, Act.turn t sp2 ∉ acts) →
      (run (turnStep s0 t sp) acts).clock < s0.clock + MIN_TYPING_DWELL_MS →
      textOf (run (turnStep s0 t sp) acts) t = [])
    ∧ (∀ (s : Sys) (a st : Nat),
      s.rafPending = true → s.streaming = some a → a ∉ s.firstSeen →
      mapGetN s.turnStart a = some st → st ≤ s.clock →
      s.clock < st + MIN_TYPING_DWELL_MS →
      frameStep s = { s with
                      rafPending := false,
                      timeouts := s.timeouts ++ [st + MIN_TYPING_DWELL_MS] }) := by
  constructor
  · intro s0 t sp acts hcount hend herr hres hturn hclock
    have hinv0 : C3Inv t s0.clock (turnStep s0 t sp) := by
      refine ⟨?_, ?_, le_refl _, ?_, ?_, ?_⟩
      · show countTurn (s0.messages ++ [⟨Role.assistant, sp, [], some t, none, []⟩]) t = 1
        rw [countTurn_append, hcount]
        simp [countTurn]
      · exact mapGetN_mapSetN_self _ _ _
      · intro _
        constructor
        · show textOfMsgs (s0.messages ++ [⟨Role.assistant, sp, [], some t, none, []⟩]) t = []
          rw [textOfMsgs_append_right _ _ _ hcount]
          simp [textOfMsgs]
        · intro hmem
          exact absurd rfl ((mem_setErase _ _ _).mp hmem).2
      · intro a ha
        have hat : a = t := by
          have : some t = some a := ha
          exact (Option.some_injective _ this).symm
        subst hat
        refine ⟨s0.clock, mapGetN_mapSetN_self _ _ _, le_refl _, le_refl _, ?_⟩
        intro hmem
        exact absurd rfl ((mem_setErase _ _ _).mp hmem).2
      · show some t ≠ none
        simp
    have hfin := C3Inv_run t s0.clock acts (turnStep s0 t sp) hinv0 hend herr hres hturn
    exact (hfin.2.2.2.1 hclock).1
  · intro s a st hraf hstr hfs hget hle hlt
    have hraf2 : ¬(s.rafPending = false) := by rw [hraf]; simp
    have hd : s.clock - (mapGetN s.turnStart a).getD 0 < MIN_TYPING_DWELL_MS := by
      rw [hget]
      simp only [Option.getD_some]
      omega
    have hf : frameStep s = { s with rafPending := false, timeouts := s.timeouts ++
        [s.clock + (MIN_TYPING_DWELL_MS - (s.clock - (mapGetN s.turnStart a).getD 0))] } := by
      simp [frameStep, hraf2, hstr, hfs, hd]
    rw [hf, hget]
    simp only [Option.getD_some]
    have harith : s.clock + (MIN_TYPING_DWELL_MS - (s.clock - st)) =
        st + MIN_TYPING_DWELL_MS := by omega
    rw [harith]

/-- C3 counterexample: the claim as stated is false on the code.  Starting a
turn at time 0, buffering the fragment `hi`, and processing `endturn` at time
20 renders `hi` at clock 20 < 120 = `MIN_TYPING_DWELL_MS`: the end-of-turn
flush puts visible characters of the turn on screen before the minimum dwell
has elapsed since the `turn` event. -/
theorem C3_dwell_counterexample :
    textOf (run ⟨0, [], [], false, [], [], [], none, none, false⟩
      [Act.turn 1 "A", Act.delta 1 "hi".toList none none, Act.tick 20, Act.endturn 1]) 1 =
      "hi".toList ∧
    (run ⟨0, [], [], false, [], [], [], none, none, false⟩
      [Act.turn 1 "A", Act.delta 1 "hi".toList none none, Act.tick 20, Act.endturn 1]).clock <
      MIN_TYPING_DWELL_MS := by
  constructor
  · decide
  · decide

theorem C3_dwell_amended_witness :
    (textOf (run (turnStep ⟨0, [], [], false, [], [], [], none, none, false⟩ 1 "A")
      [Act.delta 1 "hi".toList none none, Act.tick 20, Act.frame]) 1 = [])
    ∧ (frameStep (run ⟨0, [], [], false, [], [], [], none, none, false⟩
        [Act.turn 1 "A", Act.delta 1 "hi".toList none none, Act.tick 20]) =
      { (run ⟨0, [], [], false, [], [], [], none, none, false⟩
          [Act.turn 1 "A", Act.delta 1 "hi".toList none none, Act.tick 20]) with
        rafPending := false,
        timeouts :=
          (run ⟨0, [], [], false, [], [], [], none, none, false⟩
            [Act.turn 1 "A", Act.delta 1 "hi".toList none none, Act.tick 20]).timeouts ++
          [0 + MIN_TYPING_DWELL_MS] }) :=
  ⟨C3_dwell_amended.1 ⟨0, [], [], false, [], [], [], none, none, false⟩ 1 "A"
      [Act.delta 1 "hi".toList none none, Act.tick 20, Act.frame]
      (by decide) (by intro id; simp) (by simp) (by simp) (by intro sp2; simp)
      (by decide),
   C3_dwell_amended.2
     (run ⟨0, [], [], false, [], [], [], none, none, false⟩
       [Act.turn 1 "A", Act.delta 1 "hi".toList none none, Act.tick 20])
     1 0 (by decide) (by decide) (by decide) (by decide) (by decide) (by decide)⟩

theorem frameStep_msgbuf (s : Sys) :
    ((frameStep s).messages = flushMessages s.messages s.buf ∧ (frameStep s).buf = []) ∨
    ((frameStep s).messages = s.messages ∧ (frameStep s).buf = s.buf) := by
  by_cases hraf : s.rafPending = false
  · right
    rw [show frameStep s = s by simp [frameStep, hraf]]
    exact ⟨rfl, rfl⟩
  · cases hstr : s.streaming with
    | none =>
      left
      rw [show frameStep s = flushStep { s with rafPending := false } by
        simp [frameStep, hraf, hstr]]
      obtain ⟨hm, hb, -, -, -, -, -⟩ := flushStep_fields { s with rafPending := false }
      exact ⟨hm, hb⟩
    | some a =>
      by_cases hfs : a ∈ s.firstSeen
      · left
        rw [show frameStep s = flushStep { s with rafPending := false } by
          simp [frameStep, hraf, hstr, hfs]]
        obtain ⟨hm, hb, -, -, -, -, -⟩ := flushStep_fields { s with rafPending := false }
        exact ⟨hm, hb⟩
      · by_cases hd : s.clock - (mapGetN s.turnStart a).getD 0 < MIN_TYPING_DWELL_MS
        · right
          rw [show frameStep s = { s with rafPending := false, timeouts := s.timeouts ++
              [s.clock + (MIN_TYPING_DWELL_MS -
                (s.clock - (mapGetN s.turnStart a).getD 0))] } by
            simp [frameStep, hraf, hstr, hfs, hd]]
          exact ⟨rfl, rfl⟩
        · left
          rw [show frameStep s = flushStep { s with rafPending := false } by
            simp [frameStep, hraf, hstr, hfs, hd]]
          obtain ⟨hm, hb, -, -, -, -, -⟩ := flushStep_fields { s with rafPending := false }
          exact ⟨hm, hb⟩

theorem C8_cleared_run : ∀ (acts : List Act) (s : Sys), s.messages = [] → s.buf = [] →
    (∀ a ∈ acts, a = Act.frame ∨ (∃ i, a = Act.timer i) ∨ (∃ d, a = Act.tick d)) →
    (run s acts).messages = [] ∧ (run s acts).buf = [] := by
  intro acts
  induction acts with
  | nil => intro s hm hb _; exact ⟨hm, hb⟩
  | cons a acts ih =>
    intro s hm hb hall
    have hrest : ∀ a2 ∈ acts, a2 = Act.frame ∨ (∃ i, a2 = Act.timer i) ∨
        (∃ d, a2 = Act.tick d) := fun a2 h2 => hall a2 (List.mem_cons_of_mem _ h2)
    have hstep : (applyAct s a).messages = [] ∧ (applyAct s a).buf = [] := by
      rcases hall a (List.mem_cons_self _ _) with h | ⟨i, h⟩ | ⟨d, h⟩
      · subst h
        rcases frameStep_msgbuf s with ⟨h1, h2⟩ | ⟨h1, h2⟩
        · refine ⟨?_, h2⟩
          rw [show (applyAct s Act.frame).messages = (frameStep s).messages from rfl, h1, hm, hb]
          rfl
        · exact ⟨by rw [show (applyAct s Act.frame).messages = (frameStep s).messages from rfl,
            h1, hm], by rw [show (applyAct s Act.frame).buf = (frameStep s).buf from rfl,
            h2, hb]⟩
      · subst h
        obtain ⟨h1, h2, -, -, -, -, -⟩ := timerStep_fields s i
        exact ⟨by rw [show (applyAct s (Act.timer i)).messages = (timerStep s i).messages
          from rfl, h1, hm], by rw [show (applyAct s (Act.timer i)).buf = (timerStep s i).buf
          from rfl, h2, hb]⟩
      · subst h
        exact ⟨hm, hb⟩
    exact ih (applyAct s a) hstep.1 hstep.2 hrest

/-- C8 (amended): the claim as stated fails on the code — `reset()` clears
the delta buffers, dwell start times and first-reveal flags, but it does NOT
cancel the pending animation frame (`rafRef`) or pending dwell timeouts, and
that surviving callback can later append text buffered by a stream started
after the reset (see the counterexample).  What does hold: after `reset()`
the buffers, dwell start times and first-reveal flags are all cleared and the
streaming/typing/loading state is reset; and a stale scheduled flush can
never touch the cleared conversation itself — as long as only flushes, timer
callbacks and clock advance happen after the reset (no new stream events),
the message list and the buffer stay empty, however many stale callbacks
fire. -/
theorem C8_reset_amended :
    (∀ s : Sys,
      (resetStep s).messages = [] ∧ (resetStep s).buf = [] ∧
      (resetStep s).turnStart = [] ∧ (resetStep s).firstSeen = [] ∧
      (resetStep s).streaming = none ∧ (resetStep s).typing = none ∧
      (resetStep s).loading = false)
    ∧ (∀ (s : Sys) (acts : List Act),
      (∀ a ∈ acts, a = Act.frame ∨ (∃ i, a = Act.timer i) ∨ (∃ d, a = Act.tick d)) →
      (run (resetStep s) acts).messages = [] ∧ (run (resetStep s) acts).buf = []) := by
  constructor
  · intro s
    exact ⟨rfl, rfl, rfl, rfl, rfl, rfl, rfl⟩
  · intro s acts hall
    exact C8_cleared_run acts (resetStep s) rfl rfl hall

/-- C8 counterexample: the claim as stated is false on the code.  Before the
reset a delta has scheduled an animation frame (`rafPending = true`); `reset`
does not cancel it, and no later step schedules another one (the post-reset
delta's `scheduleFlush` no-ops because `rafPending` is still `true`), so the
frame that fires afterwards is exactly the flush scheduled before the reset —
and it appends the post-reset turn's text `x` to the message list. -/
theorem C8_reset_counterexample :
    (resetStep (run ⟨0, [], [], false, [], [], [], none, none, false⟩
      [Act.turn 1 "A", Act.delta 1 "hi".toList none none])).rafPending = true ∧
    (run (resetStep (run ⟨0, [], [], false, [], [], [], none, none, false⟩
        [Act.turn 1 "A", Act.delta 1 "hi".toList none none]))
      [Act.turn 2 "B", Act.delta 2 "x".toList none none, Act.tick 120]).rafPending = true ∧
    textOf (run (resetStep (run ⟨0, [], [], false, [], [], [], none, none, false⟩
        [Act.turn 1 "A", Act.delta 1 "hi".toList none none]))
      [Act.turn 2 "B", Act.delta 2 "x".toList none none, Act.tick 120, Act.frame]) 2 =
      "x".toList := by
  refine ⟨?_, ?_, ?_⟩
  · decide
  · decide
  · decide

theorem C8_reset_amended_witness :
    ((resetStep (run ⟨0, [], [], false, [], [], [], none, none, false⟩
        [Act.turn 1 "A", Act.delta 1 "hi".toList none none])).messages = [] ∧
      (resetStep (run ⟨0, [], [], false, [], [], [], none, none, false⟩
        [Act.turn 1 "A", Act.delta 1 "hi".toList none none])).buf = [] ∧
      (resetStep (run ⟨0, [], [], false, [], [], [], none, none, false⟩
        [Act.turn 1 "A", Act.delta 1 "hi".toList none none])).turnStart = [] ∧
      (resetStep (run ⟨0, [], [], false, [], [], [], none, none, false⟩
        [Act.turn 1 "A", Act.delta 1 "hi".toList none none])).firstSeen = [] ∧
      (resetStep (run ⟨0, [], [], false, [], [], [], none, none, false⟩
        [Act.turn 1 "A", Act.delta 1 "hi".toList none none])).streaming = none ∧
      (resetStep (run ⟨0, [], [], false, [], [], [], none, none, false⟩
        [Act.turn 1 "A", Act.delta 1 "hi".toList none none])).typing = none ∧
      (resetStep (run ⟨0, [], [], false, [], [], [], none, none, false⟩
        [Act.turn 1 "A", Act.delta 1 "hi".toList none none])).loading = false)
    ∧ ((run (resetStep (run ⟨0, [], [], false, [], [], [], none, none, false⟩
          [Act.turn 1 "A", Act.delta 1 "hi".toList none none]))
        [Act.frame, Act.tick 130, Act.timer 0, Act.frame]).messages = [] ∧
      (run (resetStep (run ⟨0, [], [], false, [], [], [], none, none, false⟩
          [Act.turn 1 "A", Act.delta 1 "hi".toList none none]))
        [Act.frame, Act.tick 130, Act.timer 0, Act.frame]).buf = []) :=
  ⟨C8_reset_amended.1 (run ⟨0, [], [], false, [], [], [], none, none, false⟩
      [Act.turn 1 "A", Act.delta 1 "hi".toList none none]),
   C8_reset_amended.2 (run ⟨0, [], [], false, [], [], [], none, none, false⟩
      [Act.turn 1 "A", Act.delta 1 "hi".toList none none])
     [Act.frame, Act.tick 130, Act.timer 0, Act.frame]
     (by
       intro a ha
       simp only [List.mem_cons, List.not_mem_nil, or_false] at ha
       rcases ha with rfl | rfl | rfl | rfl
       · exact Or.inl rfl
       · exact Or.inr (Or.inr ⟨130, rfl⟩)
       · exact Or.inr (Or.inl ⟨0, rfl⟩)
       · exact Or.inl rfl)⟩
